import Mathlib

/-!
Verification of the compound segmentation and reconciliation engine of the
wiktionary-compound-scraper repository (src/extract/base.py, with
src/extract/extract.py as a sibling iteration).  Strings are modelled as
`List Char`; Python `str.replace`, `str.rfind`, `str.rindex`, substring
membership (`in`), and the relevant regular-expression operations
(`re.split` on marker runs, `re.findall` of character-plus-delimiter-run
tokens, the `TOO_SHORT_P` search) are embedded as executable Lean functions
with the same semantics on the inputs the engine handles.
-/

namespace WCS

/-- Delimiter characters stripped by `basify` (regex `[=+\- ]`). -/
def isMarker (c : Char) : Bool :=
  c == '=' || c == '+' || c == '-' || c == ' '

/-- Closed-compound boundary markers (regex `[=+]`). -/
def isClosed (c : Char) : Bool :=
  c == '=' || c == '+'

/-- Open-delimiter characters (regex `[\- ]`). -/
def isOpenDelim (c : Char) : Bool :=
  c == '-' || c == ' '

/-- Word characters, Python regex `\w` (ASCII fragment). -/
def isWordChar (c : Char) : Bool :=
  c.isAlphanum || c == '_'

/-- Python `Extract.DELIMITERS_P.sub('', text).lower()`: strip every
delimiter character and lower-case the rest (`basify` in base.py). -/
def basify (s : List Char) : List Char :=
  (s.filter (fun c => !(isMarker c))).map Char.toLower

/-- Number of closed boundary markers (the characters counted by claim C3). -/
def countClosed (s : List Char) : Nat :=
  (s.filter isClosed).length

/-- Scanner behind `pyReplace` for a nonempty pattern `o :: os`.  The last
argument is the number of characters still to skip after an accepted match;
the recursion is structural in the scanned list, so the kernel can
evaluate it. -/
def pyrGo (o : Char) (os new : List Char) : List Char → Nat → List Char
  | [], _ => []
  | _ :: rest, k + 1 => pyrGo o os new rest k
  | c :: rest, 0 =>
    if (o :: os).isPrefixOf (c :: rest) then
      new ++ pyrGo o os new rest os.length
    else
      c :: pyrGo o os new rest 0

/-- Python `s.replace(old, new)`: replace each non-overlapping occurrence
of `old`, scanning left to right; an empty `old` inserts `new` into every
gap, as in Python. -/
def pyReplace (old new s : List Char) : List Char :=
  match old with
  | [] => new ++ (s.map (fun c => c :: new)).flatten
  | o :: os => pyrGo o os new s 0

/-- Python `compound.rfind(ch)`: index of the last occurrence, `-1` if
absent. -/
def rfindChar (ch : Char) : List Char → Int
  | [] => -1
  | c :: rest =>
    let r := rfindChar ch rest
    if 0 ≤ r then r + 1 else if c == ch then 0 else -1

/-- Python substring membership `needle in hay`. -/
def isSubstring (needle hay : List Char) : Bool :=
  (List.range (hay.length + 1)).any (fun i => needle.isPrefixOf (hay.drop i))

/-- Python `base.rindex(needle)` (as an option): the largest index at which
`needle` occurs in `hay`. -/
def rindexSub (needle hay : List Char) : Option Nat :=
  ((List.range (hay.length + 1)).filter
    (fun i => needle.isPrefixOf (hay.drop i))).getLast?

/-- Fuelled tokenizer for `Extract.CHAR_DELIM_P.findall` (regex
`[^=+\- ][=+\- ]*`): leading delimiters are skipped, and each token is one
non-delimiter character together with the delimiter run that follows it. -/
def cdtF : Nat → List Char → List (List Char)
  | 0, _ => []
  | _ + 1, [] => []
  | f + 1, c :: rest =>
    if isMarker c then cdtF f rest
    else (c :: rest.takeWhile isMarker) :: cdtF f (rest.dropWhile isMarker)

/-- Tokens of `Extract.CHAR_DELIM_P.findall`. -/
def charDelimTokens (s : List Char) : List (List Char) :=
  cdtF s.length s

/-- base.py `preserve_delimiters`: zip the two token lists positionally and
keep, for each pair, the longer token (ties keep the orthography token). -/
def preserve_delimiters (orth compound : List Char) : List Char :=
  (List.zipWith (fun o c => if o.length < c.length then c else o)
    (charDelimTokens orth) (charDelimTokens compound)).flatten

/-- Fuelled splitter for `Extract.CLOSED_DELIM_P.split` (regex `([=+]+)`
with a capture group): alternating text pieces (possibly empty at either
end) and maximal runs of closed markers. -/
def rscF : Nat → List Char → List (List Char)
  | 0, s => [s.takeWhile (fun c => !(isClosed c))]
  | f + 1, s =>
    let text := s.takeWhile (fun c => !(isClosed c))
    let rest := s.dropWhile (fun c => !(isClosed c))
    match rest with
    | [] => [text]
    | _ => text :: rest.takeWhile isClosed :: rscF f (rest.dropWhile isClosed)

/-- Pieces of `Extract.CLOSED_DELIM_P.split(compound)`. -/
def reSplitClosed (s : List Char) : List (List Char) :=
  rscF s.length s

/-- The shrink-and-retry inner loop of `reconcile_lemma`: try the whole
candidate, then the candidate with its last character dropped, and so on,
searching each via a right-most (`rindex`) search; on a hit at index `i`
return `(base[:i], base[i:])`. -/
def shrinkGo (comp base : List Char) : Nat → Option (List Char × List Char)
  | 0 => none
  | j + 1 =>
    match rindexSub (comp.take (j + 1)) base with
    | some i => some (base.take i, base.drop i)
    | none => shrinkGo comp base j

/-- The while-loop of `reconcile_lemma` over one text piece. -/
def shrinkSearch (comp base : List Char) : Option (List Char × List Char) :=
  shrinkGo comp base comp.length

/-- The outer for-loop of `reconcile_lemma`: pieces are processed in
reverse order; a piece accepted by Python's `comp in '=+'` test is
appended verbatim, any other piece goes through the shrink-and-retry
search.  The accumulator is kept in reverse processing order, so the final
string is its flattening. -/
def rlLoop : List (List Char) → List Char → List (List Char) →
    Option (List (List Char))
  | [], _, acc => some acc
  | comp :: rest, base, acc =>
    if isSubstring comp ['=', '+'] then
      rlLoop rest base (comp :: acc)
    else
      match shrinkSearch comp base with
      | some (base2, seg) => rlLoop rest base2 (seg :: acc)
      | none => none

/-- Error taxonomy of the engine (`SilentError` and the `ExtractionError`
messages raised in base.py, kept apart by site). -/
inductive EErr where
  | silent
  | noReconcile
  | tooShort
  | declension
  | affixNOS
  | lookupFail
deriving DecidableEq, Repr

/-- Result of an engine call that can raise. -/
inductive Res where
  | ok (val : List Char)
  | fail (e : EErr)
deriving DecidableEq, Repr

/-- Python search of `TOO_SHORT_P` (regex `(?:^|=|\+)\w{1,2}(?:$|=|\+)`) at
position `i` with segment length `len`. -/
def tooShortAt (s : List Char) (i len : Nat) : Bool :=
  let seg := (s.drop i).take len
  seg.length == len && seg.all isWordChar &&
    (i == 0 || (match s.get? (i - 1) with
                | some c => isClosed c
                | none => false)) &&
    (match s.get? (i + len) with
     | some c => isClosed c
     | none => true)

/-- Python `Extract.TOO_SHORT_P.search(split)` as a Boolean: does a
marker-or-edge delimited run of one or two word characters occur? -/
def tooShortCheck (s : List Char) : Bool :=
  (List.range (s.length + 1)).any (fun i => tooShortAt s i 1 || tooShortAt s i 2)

/-- base.py `reconcile_lemma(lemma, compound)`: split `compound` at closed
marker runs, re-anchor the text pieces inside `lemma` from the right, then
post-check that the basified result equals `lemma` and that no too-short
segment was produced. -/
def reconcile_lemma (lem compound : List Char) : Res :=
  match rlLoop (reSplitClosed compound).reverse lem [] with
  | none => .fail .noReconcile
  | some acc =>
    let split := acc.flatten
    if basify split ≠ lem then .fail .noReconcile
    else if tooShortCheck split then .fail .tooShort
    else .ok split

/-- The index `i = max(compound.rfind('='), compound.rfind('+'), 0)`
computed by base.py `reconcile_declension`. -/
def rdIdx (compound : List Char) : Int :=
  max (max (rfindChar '=' compound) (rfindChar '+' compound)) 0

/-- The marked prefix `compound[:i + 1]` of base.py `reconcile_declension`,
up to and including the right-most boundary marker. -/
def rdPfx (compound : List Char) : List Char :=
  compound.take ((rdIdx compound).toNat + 1)

/-- base.py `reconcile_declension(declension, compound)`: fast path via the
right-most boundary marker of `compound`, else fall back on
`reconcile_lemma`, wrapping any failure. -/
def reconcile_declension (declension compound : List Char) : Res :=
  if 0 < rdIdx compound then
    if isSubstring (basify (rdPfx compound)) declension then
      .ok (pyReplace (basify (rdPfx compound)) (rdPfx compound) declension)
    else
      match reconcile_lemma declension compound with
      | .ok r => .ok r
      | .fail _ => .fail .declension
  else
    match reconcile_lemma declension compound with
    | .ok r => .ok r
    | .fail _ => .fail .declension

/-- The strip of one leading `=` done by base.py `format_compound`. -/
def stripLead (s : List Char) : List Char :=
  if s.head? == some '=' then s.tail else s

/-- The strip of one leading and then one trailing `=` done by base.py
`format_compound`. -/
def stripEdges (s : List Char) : List Char :=
  if (stripLead s).getLast? == some '=' then (stripLead s).dropLast
  else stripLead s

/-- base.py `format_compound`: strip one leading and one trailing `=`,
lower-case, then run the six sequential `str.replace` passes. -/
def format_compound (compound : List Char) : List Char :=
  pyReplace ['-'] []
    (pyReplace ['-', '='] []
      (pyReplace ['=', '-'] []
        (pyReplace ['=', '='] ['=']
          (pyReplace ['+', '='] ['+']
            (pyReplace ['=', '+'] ['+']
              ((stripEdges compound).map Char.toLower))))))

/-- base.py `verify_compound(orth, compound)`: reject marker-free results
as simplex, reconcile when the basified forms differ (the `self.reconcile`
call resolves to `reconcile_lemma`, the only reconciler taking
`(lemma, compound)`), and merge visible delimiters back in when `orth`
carries any. -/
def verify_compound (orth compound : List Char) : Res :=
  if !(compound.contains '=') then .fail .silent
  else
    match (if basify compound ≠ basify orth then
            reconcile_lemma (basify orth) compound
           else .ok compound) with
    | .fail e => .fail e
    | .ok c =>
      if orth.contains ' ' || orth.contains '-' then
        .ok (preserve_delimiters orth c)
      else .ok c

/-- base.py `split_declension(declension, compound)`. -/
def split_declension (declension compound : List Char) : Res :=
  match reconcile_declension (basify declension) compound with
  | .fail e => .fail e
  | .ok c =>
    if declension.contains ' ' || declension.contains '-' then
      .ok (preserve_delimiters declension c)
    else .ok c

/-- Outcome of the external verification lookup for one morph, as consumed
by base.py `format_morpheme`: the morph is labelled affixal, or classified
as a word stem, or the lookup fails (`HTTPError`/`URLError`/no soup). -/
inductive MorphLookup where
  | affix
  | stem
  | failed
deriving DecidableEq, Repr

/-- Fuelled substitution of `Extract.OPEN_DELIM_P.sub('=', morph)` (regex
`([\- ]+)`): each maximal run of open delimiters becomes one `=`. -/
def odsF : Nat → List Char → List Char
  | 0, _ => []
  | _ + 1, [] => []
  | f + 1, c :: rest =>
    if isOpenDelim c then '=' :: odsF f (rest.dropWhile isOpenDelim)
    else c :: odsF f rest

/-- Substitution of open-delimiter runs by `=`. -/
def openDelimSub (s : List Char) : List Char :=
  odsF s.length s

/-- base.py `format_morpheme(morph, url, lang)` with the lookup outcome
made explicit: affixes pass through unchanged (hyphens preserved), stems
get their open delimiters rewritten to `=` and are surrounded with `=`. -/
def stemWrapLead (m : List Char) : List Char :=
  if m.head? == some '=' then m else '=' :: m

def stemWrap (m : List Char) : List Char :=
  if (stemWrapLead m).getLast? == some '=' then stemWrapLead m
  else stemWrapLead m ++ ['=']

def format_morpheme (morph : List Char) (lk : MorphLookup) :
    Except EErr (List Char × Bool) :=
  match lk with
  | .failed => .error .lookupFail
  | .affix => .ok (morph, true)
  | .stem => .ok (stemWrap (openDelimSub morph), false)

/-- The classification loop of base.py `get_compound`: each morph is
formatted, affixal morphs are counted, a hyphenless affix is wrapped in
hyphens and flagged, and a failing lookup keeps the raw morph and stores
the error (each later stored error overwrites an earlier one, as the
assignments in the Python loop do). -/
def gcStep (morph : List Char) (lk : MorphLookup) :
    List Char × Nat × Option EErr :=
  match format_morpheme morph lk with
  | .error e => (morph, 0, some e)
  | .ok (m, isA) =>
    if isA && !(m.contains '-') then
      ('-' :: m ++ ['-'], 1, some EErr.affixNOS)
    else (m, if isA then 1 else 0, (none : Option EErr))

/-- Combination of the stored error across loop iterations: a later
assignment (the tail of the fold, processed after the head) overwrites an
earlier one, exactly as the repeated `error = ...` assignments do. -/
def lastErr (tailErr headErr : Option EErr) : Option EErr :=
  match tailErr with
  | some e => some e
  | none => headErr

def gcLoop : List (List Char × MorphLookup) →
    List (List Char) × Nat × Option EErr
  | [] => ([], 0, none)
  | (morph, lk) :: rest =>
    ((gcStep morph lk).1 :: (gcLoop rest).1,
      (gcStep morph lk).2.1 + (gcLoop rest).2.1,
      lastErr (gcLoop rest).2.2 (gcStep morph lk).2.2)

/-- base.py `get_compound(orth, split)`: run the classification loop; if an
error was stored and the affix count is not exactly the morph count minus
one, raise the stored error; otherwise assemble and verify. -/
def get_compound (orth : List Char) (split : List (List Char × MorphLookup)) :
    Res :=
  match (gcLoop split).2.2 with
  | some e =>
    if ((gcLoop split).2.1 : Int) ≠ (split.length : Int) - 1 then .fail e
    else verify_compound orth (format_compound (gcLoop split).1.flatten)
  | none => verify_compound orth (format_compound (gcLoop split).1.flatten)

/-! ### Character-level helper lemmas -/

theorem char_toNat_ofNat_small (k : Nat) (hk : k < 55296) :
    (Char.ofNat k).toNat = k := by
  rw [Char.ofNat, dif_pos (Or.inl (by omega))]
  rfl

theorem char_eq_iff_toNat (c d : Char) : c = d ↔ c.toNat = d.toNat := by
  constructor
  · intro h; rw [h]
  · intro h
    apply Char.eq_of_val_eq
    apply UInt32.eq_of_toBitVec_eq
    apply BitVec.eq_of_toNat_eq
    exact h

theorem toLower_toNat (c : Char) :
    (Char.toLower c).toNat = if 65 ≤ c.toNat ∧ c.toNat ≤ 90 then c.toNat + 32 else c.toNat := by
  rw [Char.toLower]
  by_cases h : 65 ≤ c.toNat ∧ c.toNat ≤ 90
  · rw [if_pos ⟨h.1, h.2⟩, if_pos h]
    exact char_toNat_ofNat_small _ (by omega)
  · rw [if_neg, if_neg h]
    intro h2
    exact h ⟨h2.1, h2.2⟩

theorem toLower_toLower (c : Char) :
    Char.toLower (Char.toLower c) = Char.toLower c := by
  rw [char_eq_iff_toNat, toLower_toNat, toLower_toNat c]
  by_cases h : 65 ≤ c.toNat ∧ c.toNat ≤ 90
  · rw [if_pos h, if_neg (by omega)]
  · rw [if_neg h, if_neg h]

theorem isMarker_iff_toNat (c : Char) :
    isMarker c = true ↔ c.toNat = 61 ∨ c.toNat = 43 ∨ c.toNat = 45 ∨ c.toNat = 32 := by
  simp only [isMarker, Bool.or_eq_true, beq_iff_eq]
  constructor
  · rintro (((rfl | rfl) | rfl) | rfl) <;> decide
  · rintro (h | h | h | h)
    · left; left; left; rw [char_eq_iff_toNat, h]; decide
    · left; left; right; rw [char_eq_iff_toNat, h]; decide
    · left; right; rw [char_eq_iff_toNat, h]; decide
    · right; rw [char_eq_iff_toNat, h]; decide

theorem isMarker_toLower (c : Char) : isMarker (Char.toLower c) = isMarker c := by
  by_cases h : isMarker c = true
  · rw [h]
    rw [isMarker_iff_toNat] at h ⊢
    rw [toLower_toNat, if_neg (by omega)]
    exact h
  · rw [Bool.not_eq_true] at h
    rw [h]
    rw [Bool.eq_false_iff]
    intro h2
    rw [isMarker_iff_toNat, toLower_toNat] at h2
    rw [Bool.eq_false_iff, Ne, isMarker_iff_toNat] at h
    by_cases hu : 65 ≤ c.toNat ∧ c.toNat ≤ 90
    · rw [if_pos hu] at h2; omega
    · rw [if_neg hu] at h2; exact h h2

theorem toLower_eq_marker (c m : Char) (hm : isMarker m = true)
    (h : Char.toLower c = m) : c = m := by
  rw [char_eq_iff_toNat] at h ⊢
  rw [toLower_toNat] at h
  rw [isMarker_iff_toNat] at hm
  by_cases hu : 65 ≤ c.toNat ∧ c.toNat ≤ 90
  · rw [if_pos hu] at h; omega
  · rwa [if_neg hu] at h

/-! ### Basify helper lemmas -/

theorem basify_nil : basify [] = [] := rfl

theorem basify_append (a b : List Char) :
    basify (a ++ b) = basify a ++ basify b := by
  simp [basify]

theorem basify_cons (c : Char) (s : List Char) :
    basify (c :: s) = if isMarker c then basify s else Char.toLower c :: basify s := by
  by_cases h : isMarker c
  · simp [basify, List.filter_cons, h]
  · simp [basify, List.filter_cons, h]

theorem mem_basify_not_marker (s : List Char) :
    ∀ c ∈ basify s, isMarker c = false := by
  intro c hc
  simp only [basify, List.mem_map, List.mem_filter] at hc
  obtain ⟨d, ⟨_, hd⟩, rfl⟩ := hc
  rw [isMarker_toLower]
  simpa using hd

theorem basify_idem (s : List Char) : basify (basify s) = basify s := by
  induction s with
  | nil => rfl
  | cons c rest ih =>
    rw [basify_cons]
    by_cases h : isMarker c
    · rw [if_pos h]; exact ih
    · rw [if_neg h, basify_cons, isMarker_toLower,
        if_neg h, toLower_toLower, ih]

theorem marker_free_of_basify_fixed (s : List Char) (h : basify s = s) :
    ∀ c ∈ s, isMarker c = false := by
  intro c hc
  rw [← h] at hc
  exact mem_basify_not_marker s c hc

/-! ### pyReplace helper lemmas -/

theorem pyrGo_skip (o : Char) (os new u v : List Char) :
    pyrGo o os new (u ++ v) u.length = pyrGo o os new v 0 := by
  induction u with
  | nil => rfl
  | cons c u ih => simpa [pyrGo] using ih

theorem pyrGo_cons_pos (o c : Char) (os new rest : List Char)
    (h : (o :: os).isPrefixOf (c :: rest) = true) :
    pyrGo o os new (c :: rest) 0 =
      new ++ pyrGo o os new ((c :: rest).drop (os.length + 1)) 0 := by
  have h2 := h
  rw [List.isPrefixOf_iff_prefix] at h2
  obtain ⟨t, ht⟩ := h2
  rw [List.cons_append] at ht
  have hco : o = c := (List.cons.injEq ..).mp ht |>.1
  have hrest : os ++ t = rest := (List.cons.injEq ..).mp ht |>.2
  have hdrop : (c :: rest).drop (os.length + 1) = t := by
    rw [List.drop_succ_cons, ← hrest, List.drop_left]
  rw [hdrop]
  have : pyrGo o os new (c :: rest) 0 = new ++ pyrGo o os new rest os.length := by
    simp [pyrGo, h]
  rw [this, ← hrest, pyrGo_skip]

theorem pyrGo_cons_neg (o c : Char) (os new rest : List Char)
    (h : ¬ (o :: os).isPrefixOf (c :: rest) = true) :
    pyrGo o os new (c :: rest) 0 = c :: pyrGo o os new rest 0 := by
  simp [pyrGo, h]

theorem pyrGo_notOccur (o : Char) (os new : List Char) :
    ∀ s : List Char, ¬ ((o :: os) <:+: s) → pyrGo o os new s 0 = s := by
  intro s
  induction s with
  | nil => intro _; rfl
  | cons c rest ih =>
    intro h
    have hnp : ¬ (o :: os).isPrefixOf (c :: rest) = true := by
      intro hp
      rw [List.isPrefixOf_iff_prefix] at hp
      exact h (List.infix_cons_iff.mpr (Or.inl hp))
    rw [pyrGo_cons_neg o c os new rest hnp, ih]
    intro hi
    exact h (List.infix_cons_iff.mpr (Or.inr hi))

theorem pyrGo_append (o : Char) (os new a b : List Char)
    (ha : ∀ x ∈ a, x ≠ o) :
    pyrGo o os new (a ++ (o :: os) ++ b) 0 =
      a ++ new ++ pyrGo o os new b 0 := by
  induction a with
  | nil =>
    have hp : (o :: os).isPrefixOf (o :: os ++ b) = true := by
      rw [List.isPrefixOf_iff_prefix]
      exact ⟨b, by simp⟩
    simp only [List.nil_append]
    rw [show ((o :: os) ++ b : List Char) = o :: (os ++ b) by simp]
    rw [pyrGo_cons_pos o o os new (os ++ b) (by simp [hp])]
    rw [List.drop_succ_cons, List.drop_left]
  | cons x a ih =>
    have hnp : ¬ (o :: os).isPrefixOf (x :: (a ++ (o :: os) ++ b)) = true := by
      intro hp
      rw [List.isPrefixOf_iff_prefix] at hp
      obtain ⟨t, ht⟩ := hp
      rw [List.cons_append] at ht
      exact ha x (List.mem_cons_self x a) ((List.cons.injEq ..).mp ht).1.symm
    have hx : (x :: a ++ (o :: os) ++ b : List Char) =
        x :: (a ++ (o :: os) ++ b) := by simp
    rw [hx, pyrGo_cons_neg o x os new _ hnp,
      ih (fun y hy => ha y (List.mem_cons_of_mem x hy))]
    simp

theorem pyReplace_filter (ch : Char) (s : List Char) :
    pyReplace [ch] [] s = s.filter (fun c => !(c == ch)) := by
  induction s with
  | nil => rfl
  | cons c rest ih =>
    show pyrGo ch [] [] (c :: rest) 0 = _
    by_cases h : c = ch
    · subst h
      have hp : ([c] : List Char).isPrefixOf (c :: rest) = true := by
        rw [List.isPrefixOf_iff_prefix]
        exact ⟨rest, rfl⟩
      rw [pyrGo_cons_pos c c [] [] rest hp]
      simp only [List.length_nil, Nat.zero_add, List.drop_succ_cons,
        List.drop_zero, List.nil_append]
      rw [List.filter_cons_of_neg (by simp)]
      exact ih
    · have hnp : ¬ ([ch] : List Char).isPrefixOf (c :: rest) = true := by
        intro hp
        rw [List.isPrefixOf_iff_prefix] at hp
        obtain ⟨t, ht⟩ := hp
        exact h ((List.cons.injEq ..).mp ht).1.symm
      rw [pyrGo_cons_neg ch c [] [] rest hnp,
        List.filter_cons_of_pos (by simpa using h)]
      exact congrArg (c :: ·) ih

theorem basify_pyrGo (o : Char) (os new : List Char)
    (hold : basify (o :: os) = basify new) :
    ∀ n (s : List Char), s.length ≤ n →
      basify (pyrGo o os new s 0) = basify s := by
  intro n
  induction n with
  | zero =>
    intro s hs
    rw [List.length_eq_zero.mp (Nat.le_zero.mp hs)]
    rfl
  | succ n ih =>
    intro s hs
    match s with
    | [] => rfl
    | c :: rest =>
      by_cases hp : (o :: os).isPrefixOf (c :: rest) = true
      · rw [pyrGo_cons_pos o c os new rest hp]
        have h2 := hp
        rw [List.isPrefixOf_iff_prefix] at h2
        obtain ⟨t, ht⟩ := h2
        have hdrop : (c :: rest).drop (os.length + 1) = t := by
          rw [← ht, show ((o :: os) ++ t : List Char) = o :: (os ++ t) by simp,
            List.drop_succ_cons, List.drop_left]
        rw [hdrop, basify_append]
        have hlt : t.length ≤ n := by
          have : (c :: rest).length = (o :: os).length + t.length := by
            rw [← ht, List.length_append]
          simp only [List.length_cons] at this hs
          omega
        rw [ih t hlt, ← hold, ← basify_append, ht]
      · rw [pyrGo_cons_neg o c os new rest hp]
        have hlt : rest.length ≤ n := by
          simp only [List.length_cons] at hs
          omega
        rw [basify_cons, basify_cons, ih rest hlt]

theorem basify_pyReplace (old new s : List Char)
    (hold : basify old = basify new) :
    basify (pyReplace old new s) = basify s := by
  match old with
  | [] =>
    show basify (new ++ (s.map (fun c => c :: new)).flatten) = basify s
    have hnew : basify new = [] := hold.symm
    rw [basify_append, hnew, List.nil_append]
    induction s with
    | nil => rfl
    | cons c rest ih =>
      simp only [List.map_cons, List.flatten_cons]
      rw [basify_append, ih, basify_cons, basify_cons]
      by_cases h : isMarker c
      · rw [if_pos h, if_pos h, hnew, List.nil_append]
      · rw [if_neg h, if_neg h, hnew]
        simp
  | o :: os =>
    exact basify_pyrGo o os new hold s.length s (Nat.le_refl _)

/-! ### Substring and right-most search lemmas -/

theorem isSubstring_infix_iff (n h : List Char) :
    isSubstring n h = true ↔ n <:+: h := by
  simp only [isSubstring, List.any_eq_true, List.mem_range,
    List.isPrefixOf_iff_prefix]
  constructor
  · rintro ⟨i, _, t, ht⟩
    exact ⟨h.take i, t, by rw [List.append_assoc, ht, List.take_append_drop]⟩
  · rintro ⟨u, v, huv⟩
    refine ⟨u.length, ?_, v, ?_⟩
    · have : h.length = u.length + n.length + v.length := by
        rw [← huv]; simp; omega
      omega
    · rw [← huv, List.append_assoc, List.drop_left]

theorem isSubstring_nil (h : List Char) : isSubstring [] h = true := by
  simp only [isSubstring, List.any_eq_true, List.mem_range]
  exact ⟨0, by omega, by rw [List.isPrefixOf]⟩

theorem not_infix_of_not_mem (pat s : List Char) (c : Char)
    (hc : c ∈ pat) (hs : c ∉ s) : ¬ (pat <:+: s) := fun h =>
  hs (h.sublist.subset hc)

theorem rindexSub_some (n h : List Char) (i : Nat)
    (hr : rindexSub n h = some i) : n.isPrefixOf (h.drop i) = true := by
  have hmem : i ∈ ((List.range (h.length + 1)).filter
      (fun i => n.isPrefixOf (h.drop i))).getLast? := by
    rw [Option.mem_def]
    exact hr
  have hm := List.mem_of_mem_getLast? hmem
  exact (List.mem_filter.mp hm).2

theorem shrinkGo_some (comp base : List Char) :
    ∀ j b2 seg, shrinkGo comp base j = some (b2, seg) →
      ∃ i, b2 = base.take i ∧ seg = base.drop i := by
  intro j
  induction j with
  | zero => intro b2 seg h; exact absurd h (by simp [shrinkGo])
  | succ j ih =>
    intro b2 seg h
    rw [shrinkGo] at h
    cases hr : rindexSub (comp.take (j + 1)) base with
    | some i =>
      rw [hr] at h
      exact ⟨i, ((Prod.mk.injEq ..).mp (Option.some.injEq .. ▸ h)).1.symm,
        ((Prod.mk.injEq ..).mp (Option.some.injEq .. ▸ h)).2.symm⟩
    | none =>
      rw [hr] at h
      exact ih b2 seg h

theorem shrinkGo_none_of_closed_head (c : Char) (cs base : List Char)
    (hc : isClosed c = true) (hbase : ∀ x ∈ base, isClosed x = false) :
    ∀ j, shrinkGo (c :: cs) base j = none := by
  intro j
  induction j with
  | zero => rfl
  | succ j ih =>
    rw [shrinkGo]
    cases hr : rindexSub ((c :: cs).take (j + 1)) base with
    | some i =>
      exfalso
      have hp := rindexSub_some _ _ _ hr
      rw [List.isPrefixOf_iff_prefix] at hp
      have hcmem : c ∈ base.drop i := by
        have : (c :: cs).take (j + 1) = c :: cs.take j := by
          rw [List.take_succ_cons]
        rw [this] at hp
        exact hp.subset (List.mem_cons_self c _)
      have := hbase c (List.mem_of_mem_drop hcmem)
      rw [this] at hc
      exact Bool.false_ne_true hc
    | none => exact ih

/-! ### Closed-marker counting -/

theorem countClosed_append (a b : List Char) :
    countClosed (a ++ b) = countClosed a + countClosed b := by
  simp [countClosed]

theorem countClosed_eq_zero (s : List Char)
    (h : ∀ c ∈ s, isClosed c = false) : countClosed s = 0 := by
  simp only [countClosed, List.length_eq_zero]
  rw [List.filter_eq_nil_iff]
  intro c hc
  simp [h c hc]

theorem countClosed_flatten (l : List (List Char)) :
    countClosed l.flatten = (l.map countClosed).sum := by
  induction l with
  | nil => rfl
  | cons x l ih => rw [List.flatten_cons, countClosed_append, ih]; simp

theorem rlLoop_countClosed :
    ∀ (pieces : List (List Char)) (base : List Char)
      (acc acc2 : List (List Char)),
      (∀ p ∈ pieces, (∀ c ∈ p, isClosed c = true) ∨ (∀ c ∈ p, isClosed c = false)) →
      (∀ c ∈ base, isClosed c = false) →
      rlLoop pieces base acc = some acc2 →
      countClosed acc2.flatten =
        countClosed pieces.flatten + countClosed acc.flatten := by
  intro pieces
  induction pieces with
  | nil =>
    intro base acc acc2 _ _ h
    have : acc = acc2 := by simpa [rlLoop] using h
    rw [← this]
    simp [countClosed]
  | cons comp rest ih =>
    intro base acc acc2 hhom hbase h
    rw [rlLoop] at h
    by_cases hacc : isSubstring comp ['=', '+'] = true
    · rw [if_pos hacc] at h
      have := ih base (comp :: acc) acc2
        (fun p hp => hhom p (List.mem_cons_of_mem comp hp)) hbase h
      rw [this, List.flatten_cons, List.flatten_cons,
        countClosed_append, countClosed_append]
      omega
    · rw [if_neg hacc] at h
      cases hsr : shrinkSearch comp base with
      | none => rw [hsr] at h; exact absurd h (by simp)
      | some pr =>
        obtain ⟨b2, seg⟩ := pr
        rw [hsr] at h
        have hcompfree : ∀ c ∈ comp, isClosed c = false := by
          rcases hhom comp (List.mem_cons_self comp rest) with hall | hfree
          · match comp with
            | [] => exact absurd (isSubstring_nil _) hacc
            | c :: cs =>
              exfalso
              have := shrinkGo_none_of_closed_head c cs base
                (hall c (List.mem_cons_self c cs)) hbase (c :: cs).length
              rw [shrinkSearch, this] at hsr
              exact Option.noConfusion hsr
          · exact hfree
        obtain ⟨i, hb2, hseg⟩ := shrinkGo_some comp base comp.length b2 seg hsr
        have hb2free : ∀ c ∈ b2, isClosed c = false := by
          intro c hc
          rw [hb2] at hc
          exact hbase c (List.mem_of_mem_take hc)
        have hsegfree : ∀ c ∈ seg, isClosed c = false := by
          intro c hc
          rw [hseg] at hc
          exact hbase c (List.mem_of_mem_drop hc)
        have := ih b2 (seg :: acc) acc2
          (fun p hp => hhom p (List.mem_cons_of_mem comp hp)) hb2free h
        rw [this, List.flatten_cons, List.flatten_cons,
          countClosed_append, countClosed_append,
          countClosed_eq_zero comp hcompfree, countClosed_eq_zero seg hsegfree]
        omega

/-! ### reSplitClosed lemmas -/

theorem rscF_of_rest_nil (f : Nat) (s : List Char)
    (h : s.dropWhile (fun c => !(isClosed c)) = []) :
    rscF f s = [s.takeWhile (fun c => !(isClosed c))] := by
  cases f with
  | zero => rfl
  | succ f => simp only [rscF]; rw [h]

theorem rscF_of_rest_cons (f : Nat) (s rest : List Char) (r : Char)
    (h : s.dropWhile (fun c => !(isClosed c)) = r :: rest) :
    rscF (f + 1) s = s.takeWhile (fun c => !(isClosed c)) ::
      (r :: rest).takeWhile isClosed ::
      rscF f ((r :: rest).dropWhile isClosed) := by
  simp only [rscF]
  rw [h]

theorem isClosed_head_rest (s rest : List Char) (r : Char)
    (h : s.dropWhile (fun c => !(isClosed c)) = r :: rest) :
    isClosed r = true := by
  have := List.head?_dropWhile_not (fun c => !(isClosed c)) s
  rw [h] at this
  simp only [List.head?_cons] at this
  simpa using this

theorem rest2_length_lt (s rest : List Char) (r : Char)
    (h : s.dropWhile (fun c => !(isClosed c)) = r :: rest) :
    ((r :: rest).dropWhile isClosed).length + 1 ≤ s.length := by
  have hr := isClosed_head_rest s rest r h
  rw [List.dropWhile_cons_of_pos hr]
  have h1 : (rest.dropWhile isClosed).length ≤ rest.length :=
    (List.dropWhile_sublist isClosed).length_le
  have h2 : (r :: rest).length ≤ s.length :=
    h ▸ (List.dropWhile_sublist _).length_le
  simp only [List.length_cons] at h2
  omega

theorem rscF_congr : ∀ (f g : Nat) (s : List Char),
    s.length ≤ f → s.length ≤ g → rscF f s = rscF g s := by
  intro f
  induction f with
  | zero =>
    intro g s hf _
    rw [List.length_eq_zero.mp (Nat.le_zero.mp hf)]
    cases g with
    | zero => rfl
    | succ g => rfl
  | succ f ih =>
    intro g s hf hg
    cases hrest : s.dropWhile (fun c => !(isClosed c)) with
    | nil => rw [rscF_of_rest_nil _ _ hrest, rscF_of_rest_nil _ _ hrest]
    | cons r rest =>
      cases g with
      | zero =>
        exfalso
        rw [List.length_eq_zero.mp (Nat.le_zero.mp hg)] at hrest
        exact List.noConfusion hrest
      | succ g =>
        rw [rscF_of_rest_cons f s rest r hrest,
          rscF_of_rest_cons g s rest r hrest]
        have hlt := rest2_length_lt s rest r hrest
        rw [ih g ((r :: rest).dropWhile isClosed) (by omega) (by omega)]

theorem rscF_flatten : ∀ (n : Nat) (s : List Char), s.length ≤ n →
    (rscF n s).flatten = s := by
  intro n
  induction n with
  | zero =>
    intro s hs
    rw [List.length_eq_zero.mp (Nat.le_zero.mp hs)]
    rfl
  | succ n ih =>
    intro s hs
    cases hrest : s.dropWhile (fun c => !(isClosed c)) with
    | nil =>
      rw [rscF_of_rest_nil _ _ hrest]
      have := List.takeWhile_append_dropWhile (fun c => !(isClosed c)) s
      rw [hrest, List.append_nil] at this
      simpa using this
    | cons r rest =>
      rw [rscF_of_rest_cons n s rest r hrest]
      have hlt := rest2_length_lt s rest r hrest
      simp only [List.flatten_cons]
      rw [ih _ (by omega)]
      rw [List.takeWhile_append_dropWhile, ← hrest,
        List.takeWhile_append_dropWhile]

theorem flatten_reSplitClosed (s : List Char) :
    (reSplitClosed s).flatten = s :=
  rscF_flatten s.length s (Nat.le_refl _)

theorem rscF_homog : ∀ (n : Nat) (s : List Char), s.length ≤ n →
    ∀ p ∈ rscF n s,
      (∀ c ∈ p, isClosed c = true) ∨ (∀ c ∈ p, isClosed c = false) := by
  intro n
  induction n with
  | zero =>
    intro s hs p hp
    rw [List.length_eq_zero.mp (Nat.le_zero.mp hs)] at hp
    have : p = [] := by simpa [rscF] using hp
    right
    intro c hc
    rw [this] at hc
    exact absurd hc (List.not_mem_nil c)
  | succ n ih =>
    intro s hs p hp
    cases hrest : s.dropWhile (fun c => !(isClosed c)) with
    | nil =>
      rw [rscF_of_rest_nil _ _ hrest] at hp
      have : p = s.takeWhile (fun c => !(isClosed c)) := by simpa using hp
      right
      intro c hc
      rw [this] at hc
      simpa using List.mem_takeWhile_imp hc
    | cons r rest =>
      rw [rscF_of_rest_cons n s rest r hrest] at hp
      have hlt := rest2_length_lt s rest r hrest
      rcases List.mem_cons.mp hp with h1 | hp2
      · right
        intro c hc
        rw [h1] at hc
        simpa using List.mem_takeWhile_imp hc
      · rcases List.mem_cons.mp hp2 with h2 | hp3
        · left
          intro c hc
          rw [h2] at hc
          exact List.mem_takeWhile_imp hc
        · exact ih _ (by omega) p hp3

theorem reSplitClosed_homog (s : List Char) :
    ∀ p ∈ reSplitClosed s,
      (∀ c ∈ p, isClosed c = true) ∨ (∀ c ∈ p, isClosed c = false) :=
  rscF_homog s.length s (Nat.le_refl _)

/-! ### reconcile_lemma inversion -/

theorem reconcile_lemma_ok (lem compound r : List Char)
    (h : reconcile_lemma lem compound = .ok r) :
    ∃ acc, rlLoop (reSplitClosed compound).reverse lem [] = some acc ∧
      r = acc.flatten ∧ basify r = lem ∧ tooShortCheck r = false := by
  rw [reconcile_lemma] at h
  cases hl : rlLoop (reSplitClosed compound).reverse lem [] with
  | none => rw [hl] at h; exact absurd h (by simp)
  | some acc =>
    rw [hl] at h
    simp only at h
    by_cases hb : basify acc.flatten ≠ lem
    · rw [if_pos hb] at h; exact absurd h (by simp)
    · rw [if_neg hb] at h
      by_cases ht : tooShortCheck acc.flatten
      · rw [if_pos ht] at h; exact absurd h (by simp)
      · rw [if_neg ht] at h
        have hr : acc.flatten = r := by
          have := h
          simp only [Res.ok.injEq] at this
          exact this
        refine ⟨acc, rfl, hr.symm, ?_, ?_⟩
        · rw [← hr]
          simpa using hb
        · rw [← hr]
          simpa using ht

theorem isMarker_of_isClosed (c : Char) (h : isClosed c = true) :
    isMarker c = true := by
  simp only [isClosed, Bool.or_eq_true, beq_iff_eq] at h
  rcases h with rfl | rfl <;> rfl

theorem countClosed_flatten_reverse (l : List (List Char)) :
    countClosed l.reverse.flatten = countClosed l.flatten := by
  rw [countClosed_flatten, countClosed_flatten, List.map_reverse,
    List.sum_reverse]

/-- C3: whenever `reconcile_lemma` returns a reconciled string rather than
raising, the number of closed boundary markers (the characters `=` and `+`)
in the output equals the number of such characters in the input compound
pattern. -/
theorem C3_reconciler_marker_count (lem compound r : List Char)
    (h : reconcile_lemma lem compound = .ok r) :
    countClosed r = countClosed compound := by
  obtain ⟨acc, hloop, hflat, hbas, _⟩ := reconcile_lemma_ok lem compound r h
  have hlemfree : ∀ c ∈ lem, isClosed c = false := by
    intro c hc
    rw [← hbas] at hc
    have hm := mem_basify_not_marker r c hc
    cases hcl : isClosed c with
    | false => rfl
    | true => rw [isMarker_of_isClosed c hcl] at hm; exact hm
  have hhom : ∀ p ∈ (reSplitClosed compound).reverse,
      (∀ c ∈ p, isClosed c = true) ∨ (∀ c ∈ p, isClosed c = false) := by
    intro p hp
    exact reSplitClosed_homog compound p (List.mem_reverse.mp hp)
  have hmain := rlLoop_countClosed (reSplitClosed compound).reverse lem [] acc
    hhom hlemfree hloop
  rw [countClosed_flatten_reverse, flatten_reSplitClosed] at hmain
  rw [hflat, hmain]
  simp [countClosed]

/-- C3 witness: Example B of the specification, reconciling the pattern
aaltomainen=uus against the target aaltomaisuus. -/
theorem C3_reconciler_marker_count_witness :
    reconcile_lemma ("aaltomaisuus".toList) ("aaltomainen=uus".toList) =
      .ok ("aaltomais=uus".toList) ∧
    countClosed ("aaltomais=uus".toList) =
      countClosed ("aaltomainen=uus".toList) :=
  ⟨by decide, C3_reconciler_marker_count ("aaltomaisuus".toList)
    ("aaltomainen=uus".toList) ("aaltomais=uus".toList) (by decide)⟩

/-! ### charDelimTokens lemmas -/

theorem cdtF_congr : ∀ (f g : Nat) (s : List Char),
    s.length ≤ f → s.length ≤ g → cdtF f s = cdtF g s := by
  intro f
  induction f with
  | zero =>
    intro g s hf _
    rw [List.length_eq_zero.mp (Nat.le_zero.mp hf)]
    cases g with
    | zero => rfl
    | succ g => rfl
  | succ f ih =>
    intro g s hf hg
    match s with
    | [] =>
      cases g with
      | zero => rfl
      | succ g => rfl
    | c :: rest =>
      cases g with
      | zero => simp at hg
      | succ g =>
        simp only [cdtF]
        by_cases hc : isMarker c
        · rw [if_pos hc, if_pos hc]
          simp only [List.length_cons] at hf hg
          exact ih g rest (by omega) (by omega)
        · rw [if_neg hc, if_neg hc]
          simp only [List.length_cons] at hf hg
          have hd : (rest.dropWhile isMarker).length ≤ rest.length :=
            (List.dropWhile_sublist isMarker).length_le
          rw [ih g (rest.dropWhile isMarker) (by omega) (by omega)]

theorem charDelimTokens_nil : charDelimTokens [] = [] := rfl

theorem charDelimTokens_cons (c : Char) (rest : List Char) :
    charDelimTokens (c :: rest) =
      if isMarker c then charDelimTokens rest
      else (c :: rest.takeWhile isMarker) ::
        charDelimTokens (rest.dropWhile isMarker) := by
  show cdtF (c :: rest).length (c :: rest) = _
  simp only [List.length_cons, cdtF]
  by_cases hc : isMarker c
  · rw [if_pos hc, if_pos hc]
    exact cdtF_congr rest.length rest.length rest (Nat.le_refl _) (Nat.le_refl _)
  · rw [if_neg hc, if_neg hc]
    have hd : (rest.dropWhile isMarker).length ≤ rest.length :=
      (List.dropWhile_sublist isMarker).length_le
    rw [cdtF_congr rest.length (rest.dropWhile isMarker).length
      (rest.dropWhile isMarker) (by omega) (Nat.le_refl _)]
    rfl

/-- Structural well-formedness of a `CHAR_DELIM_P` token: one non-delimiter
character followed by delimiters only. -/
def wfTok (t : List Char) : Prop :=
  ∃ c d, t = c :: d ∧ isMarker c = false ∧ ∀ x ∈ d, isMarker x = true

theorem charDelimTokens_wf : ∀ (n : Nat) (s : List Char), s.length ≤ n →
    ∀ t ∈ charDelimTokens s, wfTok t := by
  intro n
  induction n with
  | zero =>
    intro s hs t ht
    rw [List.length_eq_zero.mp (Nat.le_zero.mp hs)] at ht
    exact absurd ht (List.not_mem_nil t)
  | succ n ih =>
    intro s hs t ht
    match s with
    | [] => exact absurd ht (List.not_mem_nil t)
    | c :: rest =>
      rw [charDelimTokens_cons] at ht
      simp only [List.length_cons] at hs
      by_cases hc : isMarker c
      · rw [if_pos hc] at ht
        exact ih rest (by omega) t ht
      · rw [if_neg hc] at ht
        rcases List.mem_cons.mp ht with h1 | h2
        · refine ⟨c, rest.takeWhile isMarker, h1, by simpa using hc, ?_⟩
          intro x hx
          exact List.mem_takeWhile_imp hx
        · have hd : (rest.dropWhile isMarker).length ≤ rest.length :=
            (List.dropWhile_sublist isMarker).length_le
          exact ih (rest.dropWhile isMarker) (by omega) t h2

theorem basify_all_marker (d : List Char) (h : ∀ x ∈ d, isMarker x = true) :
    basify d = [] := by
  simp only [basify, List.map_eq_nil_iff, List.filter_eq_nil_iff]
  intro c hc
  simp [h c hc]

theorem basify_wfTok (t : List Char) (h : wfTok t) :
    ∃ c, basify t = [c] := by
  obtain ⟨c, d, rfl, hc, hd⟩ := h
  refine ⟨Char.toLower c, ?_⟩
  rw [basify_cons, if_neg (by simp [hc]), basify_all_marker d hd]

theorem basify_flatten (l : List (List Char)) :
    basify l.flatten = (l.map basify).flatten := by
  induction l with
  | nil => rfl
  | cons x l ih => rw [List.flatten_cons, basify_append, ih]; simp

theorem basify_eq_flatten_tokens : ∀ (n : Nat) (s : List Char),
    s.length ≤ n →
    basify s = ((charDelimTokens s).map basify).flatten := by
  intro n
  induction n with
  | zero =>
    intro s hs
    rw [List.length_eq_zero.mp (Nat.le_zero.mp hs)]
    rfl
  | succ n ih =>
    intro s hs
    match s with
    | [] => rfl
    | c :: rest =>
      rw [charDelimTokens_cons]
      simp only [List.length_cons] at hs
      by_cases hc : isMarker c
      · rw [if_pos hc, basify_cons, if_pos hc]
        exact ih rest (by omega)
      · rw [if_neg hc]
        simp only [List.map_cons, List.flatten_cons]
        have hd : (rest.dropWhile isMarker).length ≤ rest.length :=
          (List.dropWhile_sublist isMarker).length_le
        rw [← ih (rest.dropWhile isMarker) (by omega)]
        have hsplit : (c :: rest : List Char) =
            (c :: rest.takeWhile isMarker) ++ rest.dropWhile isMarker := by
          rw [List.cons_append, List.takeWhile_append_dropWhile]
        rw [hsplit, basify_append]

theorem singleton_flatten (l : List (List Char))
    (h : ∀ x ∈ l, ∃ a, x = [a]) :
    l = l.flatten.map (fun a => [a]) := by
  induction l with
  | nil => rfl
  | cons x l ih =>
    obtain ⟨a, rfl⟩ := h _ (List.mem_cons_self x l)
    rw [List.flatten_cons]
    simp only [List.singleton_append, List.map_cons]
    rw [← ih (fun y hy => h y (List.mem_cons_of_mem _ hy))]

theorem tokens_basify_eq (o c : List Char) (h : basify c = basify o) :
    (charDelimTokens o).map basify = (charDelimTokens c).map basify := by
  have ho := basify_eq_flatten_tokens o.length o (Nat.le_refl _)
  have hc := basify_eq_flatten_tokens c.length c (Nat.le_refl _)
  have hwo : ∀ x ∈ (charDelimTokens o).map basify, ∃ a, x = [a] := by
    intro x hx
    obtain ⟨t, ht, rfl⟩ := List.mem_map.mp hx
    exact basify_wfTok t (charDelimTokens_wf o.length o (Nat.le_refl _) t ht)
  have hwc : ∀ x ∈ (charDelimTokens c).map basify, ∃ a, x = [a] := by
    intro x hx
    obtain ⟨t, ht, rfl⟩ := List.mem_map.mp hx
    exact basify_wfTok t (charDelimTokens_wf c.length c (Nat.le_refl _) t ht)
  rw [singleton_flatten _ hwo, singleton_flatten _ hwc, ← ho, ← hc, h]

theorem zipWith_pick_basify :
    ∀ (l1 l2 : List (List Char)), l1.map basify = l2.map basify →
      (List.zipWith (fun o c => if o.length < c.length then c else o) l1 l2).map
        basify = l1.map basify := by
  intro l1
  induction l1 with
  | nil => intro l2 _; simp
  | cons a l1 ih =>
    intro l2 hmap
    match l2 with
    | [] => simp at hmap
    | b :: l2 =>
      simp only [List.map_cons, List.cons.injEq] at hmap
      simp only [List.zipWith_cons_cons, List.map_cons, List.cons.injEq]
      constructor
      · by_cases hl : a.length < b.length
        · rw [if_pos hl, ← hmap.1]
        · rw [if_neg hl]
      · exact ih l2 hmap.2

theorem preserve_delimiters_basify (o c : List Char)
    (h : basify c = basify o) :
    basify (preserve_delimiters o c) = basify o := by
  rw [preserve_delimiters, basify_flatten, List.map_zipWith]
  have := zipWith_pick_basify (charDelimTokens o) (charDelimTokens c)
    (tokens_basify_eq o c h)
  rw [List.map_zipWith] at this
  rw [this, ← basify_eq_flatten_tokens o.length o (Nat.le_refl _)]

/-! ### Round-trip lemmas for verify_compound and split_declension -/

theorem vcFinish (orth c r : List Char) (hb : basify c = basify orth)
    (h : (if orth.contains ' ' || orth.contains '-' then
            Res.ok (preserve_delimiters orth c)
          else Res.ok c) = .ok r) :
    basify r = basify orth := by
  by_cases hsp : (orth.contains ' ' || orth.contains '-') = true
  · rw [if_pos hsp] at h
    have : preserve_delimiters orth c = r := by
      simpa using h
    rw [← this]
    exact preserve_delimiters_basify orth c hb
  · rw [if_neg hsp] at h
    have : c = r := by simpa using h
    rw [← this]
    exact hb

theorem verify_compound_ok_basify (orth compound r : List Char)
    (h : verify_compound orth compound = .ok r) :
    basify r = basify orth := by
  rw [verify_compound] at h
  by_cases hc : (!(compound.contains '=')) = true
  · rw [if_pos hc] at h
    exact absurd h (by simp)
  · rw [if_neg hc] at h
    by_cases hb : basify compound ≠ basify orth
    · rw [if_pos hb] at h
      cases hrl : reconcile_lemma (basify orth) compound with
      | fail e => rw [hrl] at h; exact absurd h (by simp)
      | ok c =>
        rw [hrl] at h
        obtain ⟨_, _, _, hbas, _⟩ :=
          reconcile_lemma_ok (basify orth) compound c hrl
        exact vcFinish orth c r hbas h
    · rw [if_neg hb] at h
      rw [Ne, not_not] at hb
      exact vcFinish orth compound r hb h

theorem reconcile_declension_ok_basify (d compound r : List Char)
    (hd : basify d = d)
    (h : reconcile_declension d compound = .ok r) :
    basify r = d := by
  have hfall : ∀ (hm : (match reconcile_lemma d compound with
      | .ok r2 => Res.ok r2
      | .fail _ => Res.fail .declension) = .ok r), basify r = d := by
    intro hm
    cases hrl : reconcile_lemma d compound with
    | fail e => rw [hrl] at hm; exact absurd hm (by simp)
    | ok c =>
      rw [hrl] at hm
      have hcr : c = r := by simpa using hm
      obtain ⟨_, _, _, hbas, _⟩ := reconcile_lemma_ok d compound c hrl
      rw [← hcr]
      exact hbas
  rw [reconcile_declension] at h
  by_cases hi : 0 < rdIdx compound
  · rw [if_pos hi] at h
    by_cases hs : isSubstring (basify (rdPfx compound)) d = true
    · rw [if_pos hs] at h
      have hr : pyReplace (basify (rdPfx compound)) (rdPfx compound) d = r := by
        simpa using h
      rw [← hr]
      rw [basify_pyReplace _ _ _ (basify_idem (rdPfx compound))]
      exact hd
    · rw [if_neg hs] at h
      exact hfall h
  · rw [if_neg hi] at h
    exact hfall h

theorem split_declension_ok_basify (d compound r : List Char)
    (h : split_declension d compound = .ok r) :
    basify r = basify d := by
  rw [split_declension] at h
  cases hrd : reconcile_declension (basify d) compound with
  | fail e => rw [hrd] at h; exact absurd h (by simp)
  | ok c =>
    rw [hrd] at h
    have h2 : (if (d.contains ' ' || d.contains '-') = true then
        Res.ok (preserve_delimiters d c) else Res.ok c) = Res.ok r := h
    have hbc : basify c = basify d :=
      reconcile_declension_ok_basify (basify d) compound c (basify_idem d) hrd
    by_cases hsp : (d.contains ' ' || d.contains '-') = true
    · rw [if_pos hsp] at h2
      have : preserve_delimiters d c = r := by simpa using h2
      rw [← this]
      exact preserve_delimiters_basify d c hbc
    · rw [if_neg hsp] at h2
      have : c = r := by simpa using h2
      rw [← this]
      exact hbc

/-- C1: the round-trip invariant.  Every segmentation the engine returns,
whether for a lemma through `verify_compound` (including results that went
through `reconcile_lemma` and `preserve_delimiters`) or for a declension
through `split_declension`, basifies (markers stripped, lower-cased) to
exactly the basified target orthography. -/
theorem C1_round_trip :
    (∀ orth compound r : List Char,
      verify_compound orth compound = .ok r → basify r = basify orth) ∧
    (∀ declension compound r : List Char,
      split_declension declension compound = .ok r →
        basify r = basify declension) :=
  ⟨verify_compound_ok_basify, split_declension_ok_basify⟩

/-- C1 witness: a lemma segmentation (Example A) and a declension
segmentation (Example C), each round-tripping to its target orthography. -/
theorem C1_round_trip_witness :
    verify_compound ("aakkoshakemisto".toList) ("aakkos=hakemisto".toList) =
      .ok ("aakkos=hakemisto".toList) ∧
    basify ("aakkos=hakemisto".toList) = basify ("aakkoshakemisto".toList) ∧
    split_declension ("taloissa".toList) ("talo=sta".toList) =
      .ok ("talo=issa".toList) ∧
    basify ("talo=issa".toList) = basify ("taloissa".toList) :=
  ⟨by decide,
   C1_round_trip.1 ("aakkoshakemisto".toList) ("aakkos=hakemisto".toList)
     ("aakkos=hakemisto".toList) (by decide),
   by decide,
   C1_round_trip.2 ("taloissa".toList) ("talo=sta".toList)
     ("talo=issa".toList) (by decide)⟩

/-- C10: whenever `reconcile_declension` returns through its fast-path
branch (the right-most marker index is positive and the basified prefix
occurs in the declension string, which is itself in basified form as at the
only call site), the basified form of the returned string equals the input
declension string exactly, although the branch performs no explicit
post-check: the replacement only substitutes each occurrence of the
basified prefix with material that basifies back to it. -/
theorem C10_fast_path_round_trip (declension compound : List Char)
    (hd : basify declension = declension)
    (hi : 0 < rdIdx compound)
    (hs : isSubstring (basify (rdPfx compound)) declension = true) :
    reconcile_declension declension compound =
      .ok (pyReplace (basify (rdPfx compound)) (rdPfx compound) declension) ∧
    basify (pyReplace (basify (rdPfx compound)) (rdPfx compound) declension) =
      declension := by
  constructor
  · rw [reconcile_declension, if_pos hi, if_pos hs]
  · rw [basify_pyReplace _ _ _ (basify_idem (rdPfx compound))]
    exact hd

/-- C10 witness: the fast path on declension taloissa with lemma compound
talo=sta; the returned talo=issa basifies back to taloissa. -/
theorem C10_fast_path_round_trip_witness :
    basify ("taloissa".toList) = "taloissa".toList ∧
    0 < rdIdx ("talo=sta".toList) ∧
    isSubstring (basify (rdPfx ("talo=sta".toList))) ("taloissa".toList) = true ∧
    (reconcile_declension ("taloissa".toList) ("talo=sta".toList) =
      .ok (pyReplace (basify (rdPfx ("talo=sta".toList)))
        (rdPfx ("talo=sta".toList)) ("taloissa".toList)) ∧
     basify (pyReplace (basify (rdPfx ("talo=sta".toList)))
        (rdPfx ("talo=sta".toList)) ("taloissa".toList)) = "taloissa".toList) :=
  ⟨by decide, by decide, by decide,
   C10_fast_path_round_trip ("taloissa".toList) ("talo=sta".toList)
     (by decide) (by decide) (by decide)⟩

/-- C5 counterexample: for lemma compound ta=x and declension tata the fast
path applies (basified prefix ta occurs in tata) but the result replaces
every occurrence, producing ta=ta= instead of the spliced
compound-prefix-plus-tail ta=ta predicted by the claim. -/
theorem C5_fast_path_counterexample :
    reconcile_declension ("tata".toList) ("ta=x".toList) =
      .ok ("ta=ta=".toList) ∧
    ("ta=ta=".toList : List Char) ≠
      rdPfx ("ta=x".toList) ++ ("tata".toList).drop
        (basify (rdPfx ("ta=x".toList))).length := by decide

/-- C5 as amended: the fast path applies when the right-most marker index
is positive and the basified prefix occurs anywhere in the declension
(Python substring membership, not only as a leading prefix), and the result
replaces every occurrence of the basified prefix with the marked prefix;
when the basified prefix occurs exactly once, as a leading prefix, this
coincides with the claim's splice `compound[:k] + declension[len(prefix):]`. -/
theorem C5_fast_path_amended (declension compound : List Char)
    (hi : 0 < rdIdx compound)
    (hpre : (basify (rdPfx compound)).isPrefixOf declension = true)
    (huniq : isSubstring (basify (rdPfx compound)) (declension.drop 1) = false) :
    reconcile_declension declension compound =
      .ok (rdPfx compound ++
        declension.drop (basify (rdPfx compound)).length) := by
  have hbpne : basify (rdPfx compound) ≠ [] := by
    intro hnil
    rw [hnil, isSubstring_nil] at huniq
    exact Bool.true_eq_false ▸ huniq
  match hbp : basify (rdPfx compound) with
  | [] => exact absurd hbp hbpne
  | b :: bs =>
    have hpre2 := hpre
    rw [hbp, List.isPrefixOf_iff_prefix] at hpre2
    obtain ⟨t, ht⟩ := hpre2
    have hsub : isSubstring (basify (rdPfx compound)) declension = true := by
      rw [isSubstring_infix_iff, hbp]
      exact List.IsPrefix.isInfix ⟨t, ht⟩
    rw [reconcile_declension, if_pos hi, if_pos hsub]
    have hdrop : declension.drop (basify (rdPfx compound)).length = t := by
      rw [hbp, ← ht, List.drop_left]
    have hrepl : pyReplace (basify (rdPfx compound)) (rdPfx compound)
        declension = rdPfx compound ++ t := by
      rw [hbp]
      show pyrGo b bs (rdPfx compound) declension 0 = _
      have hd2 : declension = [] ++ (b :: bs) ++ t := by
        rw [List.nil_append, ht]
      rw [hd2, pyrGo_append b bs (rdPfx compound) [] t (by intro x hx; simp at hx)]
      rw [List.nil_append]
      have hnotin : ¬ ((b :: bs) <:+: t) := by
        intro hinf
        have hsuf : t <:+ declension.drop 1 := by
          have h1 : t = (declension.drop 1).drop bs.length := by
            rw [List.drop_drop, ← hdrop, hbp]
            simp only [List.length_cons]
            rw [Nat.add_comm]
          rw [h1]
          exact List.drop_suffix _ _
        have : (b :: bs) <:+: declension.drop 1 :=
          hinf.trans hsuf.isInfix
        rw [← isSubstring_infix_iff, ← hbp] at this
        rw [huniq] at this
        exact Bool.false_ne_true this
      rw [pyrGo_notOccur b bs (rdPfx compound) t hnotin]
    rw [hrepl]
    have hfin : List.drop (b :: bs).length declension = t := by
      rw [← ht]
      simp only [List.length_cons, List.drop_succ_cons]
      exact List.drop_left bs t
    rw [hfin]

/-- C5 witness: Example C of the specification, lemma compound talo=sta and
declension taloissa, spliced to talo=issa. -/
theorem C5_fast_path_amended_witness :
    0 < rdIdx ("talo=sta".toList) ∧
    (basify (rdPfx ("talo=sta".toList))).isPrefixOf ("taloissa".toList) = true ∧
    isSubstring (basify (rdPfx ("talo=sta".toList)))
      (("taloissa".toList).drop 1) = false ∧
    reconcile_declension ("taloissa".toList) ("talo=sta".toList) =
      .ok (rdPfx ("talo=sta".toList) ++
        ("taloissa".toList).drop (basify (rdPfx ("talo=sta".toList))).length) :=
  ⟨by decide, by decide, by decide,
   C5_fast_path_amended ("taloissa".toList) ("talo=sta".toList)
     (by decide) (by decide) (by decide)⟩

/-! ### Token reconstruction lemmas for preserve_delimiters -/

theorem takeWhile_append_all (p : Char → Bool) (d u : List Char)
    (hd : ∀ x ∈ d, p x = true) :
    (d ++ u).takeWhile p = d ++ u.takeWhile p := by
  induction d with
  | nil => rfl
  | cons x d ih =>
    rw [List.cons_append, List.takeWhile_cons_of_pos
      (hd x (List.mem_cons_self x d)), ih (fun y hy => hd y (List.mem_cons_of_mem x hy))]
    rfl

theorem dropWhile_append_all (p : Char → Bool) (d u : List Char)
    (hd : ∀ x ∈ d, p x = true) :
    (d ++ u).dropWhile p = u.dropWhile p := by
  induction d with
  | nil => rfl
  | cons x d ih =>
    rw [List.cons_append, List.dropWhile_cons_of_pos
      (hd x (List.mem_cons_self x d)), ih (fun y hy => hd y (List.mem_cons_of_mem x hy))]

theorem wf_flatten_head (l : List (List Char)) (hwf : ∀ t ∈ l, wfTok t) :
    l.flatten = [] ∨ ∃ c u, l.flatten = c :: u ∧ isMarker c = false := by
  induction l with
  | nil => left; rfl
  | cons t l ih =>
    obtain ⟨c, d, rfl, hc, _⟩ := hwf t (List.mem_cons_self t l)
    right
    exact ⟨c, d ++ l.flatten, by simp, hc⟩

theorem charDelimTokens_flatten (l : List (List Char))
    (hwf : ∀ t ∈ l, wfTok t) :
    charDelimTokens l.flatten = l := by
  induction l with
  | nil => rfl
  | cons t l ih =>
    obtain ⟨c, d, rfl, hc, hd⟩ := hwf t (List.mem_cons_self t l)
    rw [List.flatten_cons, List.cons_append, charDelimTokens_cons,
      if_neg (by simp [hc])]
    have htw : (d ++ l.flatten).takeWhile isMarker = d := by
      rw [takeWhile_append_all isMarker d l.flatten hd]
      rcases wf_flatten_head l (fun t ht => hwf t (List.mem_cons_of_mem _ ht))
        with hnil | ⟨c2, u, heq, hc2⟩
      · rw [hnil]; simp
      · rw [heq, List.takeWhile_cons_of_neg (by simp [hc2]), List.append_nil]
    have hdw : (d ++ l.flatten).dropWhile isMarker = l.flatten := by
      rw [dropWhile_append_all isMarker d l.flatten hd]
      rcases wf_flatten_head l (fun t ht => hwf t (List.mem_cons_of_mem _ ht))
        with hnil | ⟨c2, u, heq, hc2⟩
      · rw [hnil]; rfl
      · rw [heq, List.dropWhile_cons_of_neg (by simp [hc2])]
    rw [htw, hdw, ih (fun t ht => hwf t (List.mem_cons_of_mem _ ht))]

theorem zipWith_pick_wf (l1 l2 : List (List Char))
    (h1 : ∀ t ∈ l1, wfTok t) (h2 : ∀ t ∈ l2, wfTok t) :
    ∀ t ∈ List.zipWith (fun o c => if o.length < c.length then c else o) l1 l2,
      wfTok t := by
  induction l1 generalizing l2 with
  | nil => intro t ht; simp at ht
  | cons a l1 ih =>
    intro t ht
    match l2 with
    | [] => simp at ht
    | b :: l2 =>
      rw [List.zipWith_cons_cons] at ht
      rcases List.mem_cons.mp ht with h | h
      · by_cases hl : a.length < b.length
        · rw [h, if_pos hl]; exact h2 b (List.mem_cons_self b l2)
        · rw [h, if_neg hl]; exact h1 a (List.mem_cons_self a l1)
      · exact ih l2 (fun x hx => h1 x (List.mem_cons_of_mem a hx))
          (fun x hx => h2 x (List.mem_cons_of_mem b hx)) t h

/-- C6 counterexample: the orthography ab cd tokenizes into four tokens and
the segmentation abc into three, yet `preserve_delimiters` raises nothing
and returns the zipped (silently truncated) merge ab c. -/
theorem C6_structural_mismatch_counterexample :
    (charDelimTokens ("ab cd".toList)).length = 4 ∧
    (charDelimTokens ("abc".toList)).length = 3 ∧
    preserve_delimiters ("ab cd".toList) ("abc".toList) = "ab c".toList := by
  decide

/-- C6 as amended: `preserve_delimiters` has no failure mode.  When the two
token sequences differ in length it silently truncates to the zipped pairs:
the returned merge always has exactly `min` of the two token counts, the
excess tokens of the longer sequence being dropped, and no
StructuralMismatch error exists anywhere in the implementation. -/
theorem C6_preserve_delimiters_total (o c : List Char) :
    (charDelimTokens (preserve_delimiters o c)).length =
      min (charDelimTokens o).length (charDelimTokens c).length := by
  rw [preserve_delimiters, charDelimTokens_flatten _
    (zipWith_pick_wf (charDelimTokens o) (charDelimTokens c)
      (charDelimTokens_wf o.length o (Nat.le_refl _))
      (charDelimTokens_wf c.length c (Nat.le_refl _)))]
  exact List.length_zipWith ..

/-! ### Short-segment post-check lemmas -/

/-- C4 counterexample: the orthography abca-apostrophe (admitted by the
scraper's word filter, which allows apostrophes) reconciles against
abc=a-apostrophe and is returned although its final segment, of length two
and adjacent to the marker, contains a non-word character and therefore
escapes the `TOO_SHORT_P` regex. -/
theorem C4_short_segment_counterexample :
    reconcile_lemma ("abca".toList ++ [Char.ofNat 39])
        ("abc=a".toList ++ [Char.ofNat 39]) =
      .ok ("abc=a".toList ++ [Char.ofNat 39]) ∧
    ("abc=a".toList ++ [Char.ofNat 39] =
      ("abc".toList ++ ['=']) ++ ("a".toList ++ [Char.ofNat 39])) ∧
    ("a".toList ++ [Char.ofNat 39]).length ≤ 2 ∧
    isClosed '=' = true := by decide

/-- C4 as amended: a returned reconciliation never contains a
marker-adjacent segment of length at most two consisting entirely of word
characters (Python `\w`): any such returned short segment must contain a
non-word character (such as an apostrophe), which the `TOO_SHORT_P`
post-check does not detect. -/
theorem C4_short_segment_amended (lem compound r u seg v : List Char)
    (h : reconcile_lemma lem compound = .ok r)
    (hdec : r = u ++ seg ++ v)
    (hne : seg ≠ [])
    (hlen : seg.length ≤ 2)
    (hu : u = [] ∨ ∃ u2 ch, u = u2 ++ [ch] ∧ isClosed ch = true)
    (hv : v = [] ∨ ∃ ch v2, v = ch :: v2 ∧ isClosed ch = true) :
    ∃ c ∈ seg, isWordChar c = false := by
  by_contra hcon
  push_neg at hcon
  have hword : ∀ c ∈ seg, isWordChar c = true := by
    intro c hc
    have := hcon c hc
    simpa using this
  obtain ⟨_, _, _, _, hts⟩ := reconcile_lemma_ok lem compound r h
  have hat : tooShortAt r u.length seg.length = true := by
    have hseg : (r.drop u.length).take seg.length = seg := by
      rw [hdec, List.append_assoc, List.drop_left, List.take_left]
    have hleft : (u.length == 0 ||
        (match r.get? (u.length - 1) with
         | some c => isClosed c
         | none => false)) = true := by
      rcases hu with rfl | ⟨u2, ch, rfl, hch⟩
      · simp
      · have hg : r.get? ((u2 ++ [ch]).length - 1) = some ch := by
          rw [hdec, List.append_assoc, List.get?_append, List.length_append]
          · simp only [List.length_singleton, Nat.add_sub_cancel]
            exact List.get?_concat_length u2 ch
          · simp only [List.length_append, List.length_singleton]
            omega
        rw [hg]
        simp [hch]
    have hright : (match r.get? (u.length + seg.length) with
        | some c => isClosed c
        | none => true) = true := by
      have hlen2 : (u ++ seg).length = u.length + seg.length := by
        rw [List.length_append]
      rcases hv with rfl | ⟨ch, v2, rfl, hch⟩
      · have : r.get? (u.length + seg.length) = none := by
          rw [List.get?_eq_none, hdec, List.append_nil, List.length_append]
        rw [this]
      · have : r.get? (u.length + seg.length) = some ch := by
          rw [hdec, List.get?_append_right (by omega), hlen2]
          simp
        rw [this]
        exact hch
    rw [tooShortAt]
    have hall : seg.all isWordChar = true := List.all_eq_true.mpr hword
    simp only [hseg, hall, hleft, hright, beq_self_eq_true, Bool.and_true,
      Bool.true_and, Bool.and_self]
  have hmem : u.length ∈ List.range (r.length + 1) := by
    rw [List.mem_range, hdec]
    simp only [List.length_append]
    omega
  have hcheck : tooShortCheck r = true := by
    rw [tooShortCheck, List.any_eq_true]
    refine ⟨u.length, hmem, ?_⟩
    have hsl : seg.length = 1 ∨ seg.length = 2 := by
      have : 0 < seg.length := List.length_pos.mpr hne
      omega
    rcases hsl with h1 | h2
    · rw [← h1, hat]; rfl
    · rw [Bool.or_eq_true]
      right
      rw [← h2]
      exact hat
  rw [hts] at hcheck
  exact Bool.false_ne_true hcheck

/-- C4 amended-theorem witness: the returned reconciliation
abc=a-apostrophe has a marker-adjacent final segment of length two, so the
theorem yields a non-word character inside it. -/
theorem C4_short_segment_amended_witness :
    ∃ c ∈ ("a".toList ++ [Char.ofNat 39]), isWordChar c = false :=
  C4_short_segment_amended
    ("abca".toList ++ [Char.ofNat 39])
    ("abc=a".toList ++ [Char.ofNat 39])
    ("abc=a".toList ++ [Char.ofNat 39])
    ("abc=".toList) ("a".toList ++ [Char.ofNat 39]) []
    (by decide) (by decide) (by decide) (by decide)
    (Or.inr ⟨"abc".toList, '=', by decide, by decide⟩)
    (Or.inl rfl)

/-! ### Error-taxonomy lemmas for the classification loop -/

theorem reconcile_lemma_fail_kinds (lem compound : List Char) (e : EErr)
    (h : reconcile_lemma lem compound = .fail e) :
    e = .noReconcile ∨ e = .tooShort := by
  rw [reconcile_lemma] at h
  cases hl : rlLoop (reSplitClosed compound).reverse lem [] with
  | none =>
    rw [hl] at h
    left
    have : EErr.noReconcile = e := by simpa using h
    exact this.symm
  | some acc =>
    rw [hl] at h
    simp only at h
    by_cases hb : basify acc.flatten ≠ lem
    · rw [if_pos hb] at h
      left
      have : EErr.noReconcile = e := by simpa using h
      exact this.symm
    · rw [if_neg hb] at h
      by_cases ht : tooShortCheck acc.flatten
      · rw [if_pos ht] at h
        right
        have : EErr.tooShort = e := by simpa using h
        exact this.symm
      · rw [if_neg ht] at h
        exact absurd h (by simp)

theorem verify_compound_fail_kinds (orth compound : List Char) (e : EErr)
    (h : verify_compound orth compound = .fail e) :
    e = .silent ∨ e = .noReconcile ∨ e = .tooShort := by
  rw [verify_compound] at h
  by_cases hc : (!(compound.contains '=')) = true
  · rw [if_pos hc] at h
    left
    have : EErr.silent = e := by simpa using h
    exact this.symm
  · rw [if_neg hc] at h
    by_cases hb : basify compound ≠ basify orth
    · rw [if_pos hb] at h
      cases hrl : reconcile_lemma (basify orth) compound with
      | fail e2 =>
        rw [hrl] at h
        have he : e2 = e := by simpa using h
        right
        rw [← he]
        exact reconcile_lemma_fail_kinds (basify orth) compound e2 hrl
      | ok c =>
        rw [hrl] at h
        have h2 : (if (orth.contains ' ' || orth.contains '-') = true then
            Res.ok (preserve_delimiters orth c) else Res.ok c) = .fail e := h
        by_cases hsp : (orth.contains ' ' || orth.contains '-') = true
        · rw [if_pos hsp] at h2; exact absurd h2 (by simp)
        · rw [if_neg hsp] at h2; exact absurd h2 (by simp)
    · rw [if_neg hb] at h
      have h2 : (if (orth.contains ' ' || orth.contains '-') = true then
          Res.ok (preserve_delimiters orth compound) else Res.ok compound) =
            .fail e := h
      by_cases hsp : (orth.contains ' ' || orth.contains '-') = true
      · rw [if_pos hsp] at h2; exact absurd h2 (by simp)
      · rw [if_neg hsp] at h2; exact absurd h2 (by simp)

theorem lastErr_some (e : EErr) (he : Option EErr) :
    lastErr (some e) he = some e := rfl

theorem lastErr_none (he : Option EErr) : lastErr none he = he := rfl

theorem gcLoop_cons (morph : List Char) (lk : MorphLookup)
    (rest : List (List Char × MorphLookup)) :
    (gcLoop ((morph, lk) :: rest)).2.1 =
      (gcStep morph lk).2.1 + (gcLoop rest).2.1 ∧
    (gcLoop ((morph, lk) :: rest)).2.2 =
      lastErr (gcLoop rest).2.2 (gcStep morph lk).2.2 :=
  ⟨rfl, rfl⟩

theorem gcStep_affix (morph : List Char) (hcont : morph.contains '-' = true) :
    gcStep morph MorphLookup.affix = (morph, 1, none) := by
  rw [gcStep, format_morpheme]
  simp only [hcont]
  rw [if_neg (by simp)]
  simp

theorem gcStep_failed (morph : List Char) :
    gcStep morph MorphLookup.failed = (morph, 0, some EErr.lookupFail) := rfl

theorem gcLoop_affix_or_failed (ms : List (List Char × MorphLookup))
    (hall : ∀ m ∈ ms, (m.2 = MorphLookup.affix ∧ m.1.contains '-' = true) ∨
      m.2 = MorphLookup.failed) :
    (gcLoop ms).2.1 + (ms.filter (fun m => m.2 == MorphLookup.failed)).length =
      ms.length ∧
    ((gcLoop ms).2.2 = none ∨ (gcLoop ms).2.2 = some .lookupFail) ∧
    ((gcLoop ms).2.2 = none ↔
      (ms.filter (fun m => m.2 == MorphLookup.failed)).length = 0) := by
  induction ms with
  | nil => exact ⟨rfl, Or.inl rfl, by simp [gcLoop]⟩
  | cons m rest ih =>
    obtain ⟨morph, lk⟩ := m
    obtain ⟨hcnt, hkind, hiff⟩ :=
      ih (fun x hx => hall x (List.mem_cons_of_mem _ hx))
    obtain ⟨hp1, hp2⟩ := gcLoop_cons morph lk rest
    rcases hall (morph, lk) (List.mem_cons_self _ rest) with ⟨haff, hcont⟩ | hfail
    · simp only at haff hcont
      subst haff
      have hstep := gcStep_affix morph hcont
      have hfilt : ((morph, MorphLookup.affix) :: rest).filter
          (fun m => m.2 == MorphLookup.failed) =
          rest.filter (fun m => m.2 == MorphLookup.failed) := by
        rw [List.filter_cons_of_neg (by simp)]
      refine ⟨?_, ?_, ?_⟩
      · rw [hfilt, hp1, hstep]
        simp only [List.length_cons]
        omega
      · rw [hp2, hstep]
        rcases hkind with hnone | hlf
        · rw [hnone, lastErr_none]
          exact Or.inl rfl
        · rw [hlf, lastErr_some]
          exact Or.inr rfl
      · rw [hfilt, hp2, hstep]
        cases hre : (gcLoop rest).2.2 with
        | none =>
          rw [lastErr_none]
          rw [hre] at hiff
          exact ⟨fun _ => hiff.mp rfl, fun _ => rfl⟩
        | some e =>
          rw [lastErr_some]
          rw [hre] at hiff
          constructor
          · intro hcontra; exact Option.noConfusion hcontra
          · intro hlen
            exact Option.noConfusion (hiff.mpr hlen)
    · simp only at hfail
      subst hfail
      have hstep := gcStep_failed morph
      have hfilt : ((morph, MorphLookup.failed) :: rest).filter
          (fun m => m.2 == MorphLookup.failed) =
          (morph, MorphLookup.failed) ::
            rest.filter (fun m => m.2 == MorphLookup.failed) := by
        rw [List.filter_cons_of_pos (by simp)]
      refine ⟨?_, ?_, ?_⟩
      · rw [hfilt, hp1, hstep]
        simp only [List.length_cons]
        omega
      · rw [hp2, hstep]
        rcases hkind with hnone | hlf
        · rw [hnone, lastErr_none]
          exact Or.inr rfl
        · rw [hlf, lastErr_some]
          exact Or.inr rfl
      · rw [hfilt, hp2, hstep]
        cases hre : (gcLoop rest).2.2 with
        | none =>
          rw [lastErr_none]
          constructor
          · intro hx; exact Option.noConfusion hx
          · intro hx; rw [List.length_cons] at hx; omega
        | some e =>
          rw [lastErr_some]
          constructor
          · intro hx; exact Option.noConfusion hx
          · intro hx; rw [List.length_cons] at hx; omega

/-- C2 counterexample: a three-morph etymology in which the middle morph's
lookup fails while the two outer morphs are confirmed stems; contrary to
the claim, `get_compound` raises the stored lookup error, because the
tolerance condition requires every other morph to be affixal. -/
theorem C2_lookup_tolerance_counterexample :
    get_compound ("abcdefghi".toList)
      [("abc".toList, MorphLookup.stem), ("def".toList, MorphLookup.failed),
       ("ghi".toList, MorphLookup.stem)] = .fail .lookupFail := by decide

/-- C2 as amended: a verification-lookup failure for one morph is tolerated
(classification proceeds to assembly and verification) exactly when every
other morph of the candidate is affixal, i.e. the affix count equals the
morph count minus one; in particular with exactly one failed lookup and all
remaining morphs confirmed (hyphen-bearing) affixes, `get_compound` does
not raise the stored lookup error.  With two confirmed stems and one failed
lookup it does raise it, as the counterexample shows. -/
theorem C2_lookup_tolerance_amended (orth : List Char)
    (ms : List (List Char × MorphLookup))
    (hall : ∀ m ∈ ms, (m.2 = MorphLookup.affix ∧ m.1.contains '-' = true) ∨
      m.2 = MorphLookup.failed)
    (hone : (ms.filter (fun m => m.2 == MorphLookup.failed)).length = 1) :
    get_compound orth ms ≠ .fail .lookupFail := by
  obtain ⟨hcnt, hkind, hiff⟩ := gcLoop_affix_or_failed ms hall
  have herr : (gcLoop ms).2.2 = some .lookupFail := by
    rcases hkind with hnone | hlf
    · exfalso
      rw [hiff] at hnone
      omega
    · exact hlf
  have haff : ((gcLoop ms).2.1 : Int) = (ms.length : Int) - 1 := by
    omega
  rw [get_compound, herr]
  show (if ((gcLoop ms).2.1 : Int) ≠ (ms.length : Int) - 1 then
      Res.fail EErr.lookupFail
    else verify_compound orth (format_compound (gcLoop ms).1.flatten)) ≠
      Res.fail EErr.lookupFail
  rw [if_neg (by rw [haff]; simp)]
  intro hcontra
  rcases verify_compound_fail_kinds orth
      (format_compound (gcLoop ms).1.flatten) .lookupFail hcontra with
    h | h | h <;> exact EErr.noConfusion h

/-- C2 amended-theorem witness: one hyphen-bearing affix plus one failed
lookup; classification proceeds and the stored lookup error is not
raised. -/
theorem C2_lookup_tolerance_amended_witness :
    get_compound ("ab".toList)
      [("-a-".toList, MorphLookup.affix), ("b".toList, MorphLookup.failed)] ≠
      .fail .lookupFail :=
  C2_lookup_tolerance_amended ("ab".toList)
    [("-a-".toList, MorphLookup.affix), ("b".toList, MorphLookup.failed)]
    (by decide) (by decide)

/-! ### Step-counted interpreters for the reconcile_lemma loops -/

/-- A step-counted version of the shrink-and-retry while loop: one unit of
fuel is consumed per iteration, `none` means the fuel ran out. -/
def shrinkGoF : Nat → List Char → List Char → Nat →
    Option (Option (List Char × List Char))
  | 0, _, _, _ => none
  | _ + 1, _, _, 0 => some none
  | g + 1, comp, base, j + 1 =>
    match rindexSub (comp.take (j + 1)) base with
    | some i => some (some (base.take i, base.drop i))
    | none => shrinkGoF g comp base j

/-- A step-counted version of the outer loop over the reversed pieces: one
unit of fuel per piece, with the inner while loop also drawing on the same
fuel. -/
def rlLoopF : Nat → List (List Char) → List Char → List (List Char) →
    Option (Option (List (List Char)))
  | 0, _, _, _ => none
  | _ + 1, [], _, acc => some (some acc)
  | g + 1, comp :: rest, base, acc =>
    if isSubstring comp ['=', '+'] then rlLoopF g rest base (comp :: acc)
    else
      match shrinkGoF g comp base comp.length with
      | none => none
      | some none => some none
      | some (some (b2, seg)) => rlLoopF g rest b2 (seg :: acc)

theorem shrinkGoF_complete : ∀ (g j : Nat) (comp base : List Char), j < g →
    shrinkGoF g comp base j = some (shrinkGo comp base j) := by
  intro g
  induction g with
  | zero => intro j comp base hj; omega
  | succ g ih =>
    intro j comp base hj
    cases j with
    | zero => rfl
    | succ j =>
      rw [shrinkGoF, shrinkGo]
      cases hr : rindexSub (comp.take (j + 1)) base with
      | some i => rfl
      | none => exact ih j comp base (by omega)

theorem rlLoopF_complete :
    ∀ (pieces : List (List Char)) (g : Nat) (base : List Char)
      (acc : List (List Char)),
      (pieces.map (fun p => p.length + 1)).sum < g →
      rlLoopF g pieces base acc = some (rlLoop pieces base acc) := by
  intro pieces
  induction pieces with
  | nil =>
    intro g base acc hg
    match g with
    | g + 1 => rfl
  | cons comp rest ih =>
    intro g base acc hg
    simp only [List.map_cons, List.sum_cons] at hg
    match g with
    | g + 1 =>
      rw [rlLoopF, rlLoop]
      by_cases hacc : isSubstring comp ['=', '+'] = true
      · rw [if_pos hacc, if_pos hacc]
        exact ih g base (comp :: acc) (by omega)
      · rw [if_neg hacc, if_neg hacc]
        rw [shrinkGoF_complete g comp.length comp base (by omega)]
        rw [show shrinkGo comp base comp.length = shrinkSearch comp base from rfl]
        cases hsr : shrinkSearch comp base with
        | none => rfl
        | some pr =>
          obtain ⟨b2, seg⟩ := pr
          exact ih g b2 (seg :: acc) (by omega)

/-- C9: `reconcile_lemma` terminates on every input pair.  The outer loop
ranges over the finite reversed token split of the compound and the inner
retry loop shortens its candidate by one character per failed right-most
search, so the step-counted interpreter of the two loops, given fuel equal
to the number of pieces plus the lengths of all pieces (one unit per outer
iteration plus one per inner retry, plus one), completes and agrees with
the loop `rlLoop` that `reconcile_lemma` evaluates. -/
theorem C9_reconcile_lemma_terminates (lem compound : List Char) :
    rlLoopF
      ((((reSplitClosed compound).reverse).map (fun p => p.length + 1)).sum + 1)
      (reSplitClosed compound).reverse lem [] =
      some (rlLoop (reSplitClosed compound).reverse lem []) :=
  rlLoopF_complete (reSplitClosed compound).reverse _ lem [] (by omega)

/-! ### Marker-collapsing helper lemmas for format_compound -/

theorem marker_toLower_fix (c : Char) (h : isMarker c = true) :
    Char.toLower c = c := by
  simp only [isMarker, Bool.or_eq_true, beq_iff_eq] at h
  rcases h with ((rfl | rfl) | rfl) | rfl <;> decide

theorem map_toLower_fix (l : List Char) (h : ∀ c ∈ l, Char.toLower c = c) :
    l.map Char.toLower = l := by
  induction l with
  | nil => rfl
  | cons c l ih =>
    rw [List.map_cons, h c (List.mem_cons_self c l),
      ih (fun x hx => h x (List.mem_cons_of_mem c hx))]

theorem marker_not_mem_free (o : Char) (l : List Char)
    (ho : isMarker o = true) (hl : ∀ c ∈ l, isMarker c = false) : o ∉ l := by
  intro hm
  rw [hl o hm] at ho
  exact Bool.false_ne_true ho

theorem stripEdges_of_free_ends (s : List Char) (x : Char) (a2 b2 : List Char)
    (y : Char) (hs : s = x :: a2 ++ b2 ++ [y])
    (hx : isMarker x = false) (hy : isMarker y = false) :
    stripEdges s = s := by
  have hhead : s.head? = some x := by rw [hs]; rfl
  have hlead : stripLead s = s := by
    rw [stripLead, hhead]
    rw [if_neg]
    intro hcon
    have : x = '=' := by simpa using hcon
    rw [this] at hx
    exact Bool.true_eq_false ▸ hx
  have hlast : s.getLast? = some y := by
    rw [hs]
    show ((x :: a2 ++ b2) ++ [y]).getLast? = some y
    rw [List.getLast?_append]
    rfl
  rw [stripEdges, hlead, hlast]
  rw [if_neg]
  intro hcon
  have : y = '=' := by simpa using hcon
  rw [this] at hy
  exact Bool.true_eq_false ▸ hy

theorem pyReplace_no_mem (o : Char) (os repl s : List Char)
    (h : o ∉ s) : pyReplace (o :: os) repl s = s := by
  show pyrGo o os repl s 0 = s
  exact pyrGo_notOccur o os repl s
    (not_infix_of_not_mem (o :: os) s o (List.mem_cons_self o os) h)

theorem notInfix_pair_middle (p1 p2 m1 m2 : Char) (a b : List Char)
    (hp1 : isMarker p1 = true) (hp2 : isMarker p2 = true)
    (hma : ∀ c ∈ a, isMarker c = false) (hmb : ∀ c ∈ b, isMarker c = false)
    (h : [p1, p2] <:+: (a ++ m1 :: m2 :: b)) : p1 = m1 ∧ p2 = m2 := by
  induction a with
  | nil =>
    rw [List.nil_append] at h
    rcases List.infix_cons_iff.mp h with hpre | hinf
    · obtain ⟨t, ht⟩ := hpre
      simp only [List.cons_append, List.nil_append] at ht
      exact ⟨((List.cons.injEq ..).mp ht).1,
        ((List.cons.injEq ..).mp ((List.cons.injEq ..).mp ht).2).1⟩
    · exfalso
      rcases List.infix_cons_iff.mp hinf with hpre2 | hinf2
      · obtain ⟨t, ht⟩ := hpre2
        simp only [List.cons_append, List.nil_append] at ht
        injection ht with h1 h2
        have hp2b : p2 ∈ b := by
          rw [← h2]
          exact List.mem_cons_self p2 t
        exact marker_not_mem_free p2 b hp2 hmb hp2b
      · exact marker_not_mem_free p1 b hp1 hmb
          (hinf2.sublist.subset (List.mem_cons_self p1 [p2]))
  | cons x a ih =>
    rw [List.cons_append] at h
    rcases List.infix_cons_iff.mp h with hpre | hinf
    · obtain ⟨t, ht⟩ := hpre
      simp only [List.cons_append] at ht
      have hxp : p1 = x := ((List.cons.injEq ..).mp ht).1
      have := hma x (List.mem_cons_self x a)
      rw [← hxp, hp1] at this
      exact absurd this (by simp)
    · exact ih (fun c hc => hma c (List.mem_cons_of_mem x hc)) hinf

theorem notInfix_pair_single (p1 p2 m : Char) (a b : List Char)
    (hp1 : isMarker p1 = true) (hp2 : isMarker p2 = true)
    (hma : ∀ c ∈ a, isMarker c = false) (hmb : ∀ c ∈ b, isMarker c = false) :
    ¬ ([p1, p2] <:+: (a ++ m :: b)) := by
  intro h
  induction a with
  | nil =>
    rw [List.nil_append] at h
    rcases List.infix_cons_iff.mp h with hpre | hinf
    · obtain ⟨t, ht⟩ := hpre
      simp only [List.cons_append, List.nil_append] at ht
      injection ht with h1 h2
      have hp2b : p2 ∈ b := by
        rw [← h2]
        exact List.mem_cons_self p2 t
      exact marker_not_mem_free p2 b hp2 hmb hp2b
    · exact marker_not_mem_free p1 b hp1 hmb
        (hinf.sublist.subset (List.mem_cons_self p1 [p2]))
  | cons x a ih =>
    rw [List.cons_append] at h
    rcases List.infix_cons_iff.mp h with hpre | hinf
    · obtain ⟨t, ht⟩ := hpre
      simp only [List.cons_append] at ht
      injection ht with h1 h2
      have := hma x (List.mem_cons_self x a)
      rw [← h1, hp1] at this
      exact absurd this (by simp)
    · exact ih (fun c hc => hma c (List.mem_cons_of_mem x hc)) hinf

theorem pyReplace_pair_miss (p1 p2 m1 m2 : Char) (repl a b : List Char)
    (hp1 : isMarker p1 = true) (hp2 : isMarker p2 = true)
    (hma : ∀ c ∈ a, isMarker c = false) (hmb : ∀ c ∈ b, isMarker c = false)
    (hne : ¬ (p1 = m1 ∧ p2 = m2)) :
    pyReplace [p1, p2] repl (a ++ m1 :: m2 :: b) = a ++ m1 :: m2 :: b := by
  show pyrGo p1 [p2] repl (a ++ m1 :: m2 :: b) 0 = _
  apply pyrGo_notOccur
  intro hinf
  exact hne (notInfix_pair_middle p1 p2 m1 m2 a b hp1 hp2 hma hmb hinf)

theorem pyReplace_pair_hit (m1 m2 : Char) (repl a b : List Char)
    (hm1 : isMarker m1 = true)
    (hma : ∀ c ∈ a, isMarker c = false) (hmb : ∀ c ∈ b, isMarker c = false) :
    pyReplace [m1, m2] repl (a ++ m1 :: m2 :: b) = a ++ repl ++ b := by
  show pyrGo m1 [m2] repl (a ++ m1 :: m2 :: b) 0 = _
  have hshape : a ++ m1 :: m2 :: b = a ++ (m1 :: [m2]) ++ b := by simp
  rw [hshape, pyrGo_append m1 [m2] repl a b (fun x hx => by
    intro hxe
    have := hma x hx
    rw [hxe, hm1] at this
    exact absurd this (by simp))]
  rw [pyrGo_notOccur m1 [m2] repl b
    (not_infix_of_not_mem _ _ m1 (List.mem_cons_self m1 [m2])
      (marker_not_mem_free m1 b hm1 hmb))]

theorem pyReplace_hyphen_free (s : List Char) (h : ('-' : Char) ∉ s) :
    pyReplace ['-'] [] s = s := by
  rw [pyReplace_filter]
  apply List.filter_eq_self.mpr
  intro c hc
  simp only [Bool.not_eq_eq_eq_not, Bool.not_true, beq_eq_false_iff_ne, ne_eq]
  intro hce
  rw [hce] at hc
  exact h hc

theorem pyReplace_pair_single_miss (p1 p2 m : Char) (repl a b : List Char)
    (hp1 : isMarker p1 = true) (hp2 : isMarker p2 = true)
    (hma : ∀ c ∈ a, isMarker c = false) (hmb : ∀ c ∈ b, isMarker c = false) :
    pyReplace [p1, p2] repl (a ++ m :: b) = a ++ m :: b := by
  show pyrGo p1 [p2] repl (a ++ m :: b) 0 = _
  exact pyrGo_notOccur p1 [p2] repl (a ++ m :: b)
    (notInfix_pair_single p1 p2 m a b hp1 hp2 hma hmb)

theorem hyphen_not_mem_single (m : Char) (a b : List Char) (hm : m ≠ '-')
    (hma : ∀ c ∈ a, isMarker c = false) (hmb : ∀ c ∈ b, isMarker c = false) :
    ('-' : Char) ∉ a ++ m :: b := by
  intro h
  rcases List.mem_append.mp h with h1 | h2
  · have := hma _ h1
    exact absurd this (by simp [isMarker])
  · rcases List.mem_cons.mp h2 with h3 | h4
    · exact hm h3.symm
    · have := hmb _ h4
      exact absurd this (by simp [isMarker])

theorem hyphen_not_mem_append (a b : List Char)
    (hma : ∀ c ∈ a, isMarker c = false) (hmb : ∀ c ∈ b, isMarker c = false) :
    ('-' : Char) ∉ a ++ b := by
  intro h
  rcases List.mem_append.mp h with h1 | h2
  · have := hma _ h1
    exact absurd this (by simp [isMarker])
  · have := hmb _ h2
    exact absurd this (by simp [isMarker])

theorem prep_middle (a b : List Char) (m1 m2 : Char)
    (ha : a ≠ []) (hb : b ≠ [])
    (hma : ∀ c ∈ a, isMarker c = false) (hmb : ∀ c ∈ b, isMarker c = false)
    (hla : ∀ c ∈ a, Char.toLower c = c) (hlb : ∀ c ∈ b, Char.toLower c = c)
    (hm1 : isMarker m1 = true) (hm2 : isMarker m2 = true) :
    (stripEdges (a ++ m1 :: m2 :: b)).map Char.toLower =
      a ++ m1 :: m2 :: b := by
  obtain ⟨x, a2, rfl⟩ := List.exists_cons_of_ne_nil ha
  rcases List.eq_nil_or_concat b with rfl | ⟨b2, y, rfl⟩
  · exact absurd rfl hb
  simp only [List.concat_eq_append] at hmb hlb hb ⊢
  have hse : stripEdges ((x :: a2) ++ m1 :: m2 :: (b2 ++ [y])) =
      (x :: a2) ++ m1 :: m2 :: (b2 ++ [y]) := by
    apply stripEdges_of_free_ends _ x (a2 ++ m1 :: m2 :: b2) [] y
    · simp
    · exact hma x (List.mem_cons_self x a2)
    · exact hmb y (by simp)
  rw [hse]
  apply map_toLower_fix
  intro c hc
  rcases List.mem_append.mp hc with h1 | h2
  · exact hla c h1
  · rcases List.mem_cons.mp h2 with h3 | h4
    · rw [h3]; exact marker_toLower_fix m1 hm1
    · rcases List.mem_cons.mp h4 with h5 | h6
      · rw [h5]; exact marker_toLower_fix m2 hm2
      · exact hlb c h6

/-- C7 counterexample: at the shared boundary of a stem marker and an affix
hyphen in =a=-b- both markers are deleted: the output is ab, with no
surviving stem marker, contradicting the claim that the stronger marker
wins there. -/
theorem C7_marker_collapse_counterexample :
    format_compound ("=a=-b-".toList) = "ab".toList ∧
    ("ab".toList).contains '=' = false := by decide

/-- C7 as amended: `format_compound` collapses `=+` and `+=` to `+` (the
interfix wins over a stem marker) and `==` to `=`, but at a shared boundary
of a stem marker and an affix hyphen (`=-` or `-=`) it deletes both
characters, leaving no boundary at all; all remaining hyphens are removed,
a leading or trailing `=` is stripped, and the result is lower-cased. -/
theorem C7_marker_collapse_amended (a b : List Char)
    (ha : a ≠ []) (hb : b ≠ [])
    (hma : ∀ c ∈ a, isMarker c = false) (hmb : ∀ c ∈ b, isMarker c = false)
    (hla : ∀ c ∈ a, Char.toLower c = c) (hlb : ∀ c ∈ b, Char.toLower c = c) :
    format_compound (a ++ '=' :: '+' :: b) = a ++ '+' :: b ∧
    format_compound (a ++ '+' :: '=' :: b) = a ++ '+' :: b ∧
    format_compound (a ++ '=' :: '=' :: b) = a ++ '=' :: b ∧
    format_compound (a ++ '=' :: '-' :: b) = a ++ b ∧
    format_compound (a ++ '-' :: '=' :: b) = a ++ b := by
  refine ⟨?_, ?_, ?_, ?_, ?_⟩
  · rw [format_compound,
      prep_middle a b '=' '+' ha hb hma hmb hla hlb (by decide) (by decide),
      pyReplace_pair_hit '=' '+' ['+'] a b (by decide) hma hmb,
      List.append_assoc, List.singleton_append,
      pyReplace_pair_single_miss '+' '=' '+' ['+'] a b (by decide) (by decide) hma hmb,
      pyReplace_pair_single_miss '=' '=' '+' ['='] a b (by decide) (by decide) hma hmb,
      pyReplace_pair_single_miss '=' '-' '+' [] a b (by decide) (by decide) hma hmb,
      pyReplace_pair_single_miss '-' '=' '+' [] a b (by decide) (by decide) hma hmb,
      pyReplace_hyphen_free _ (hyphen_not_mem_single '+' a b (by decide) hma hmb)]
  · rw [format_compound,
      prep_middle a b '+' '=' ha hb hma hmb hla hlb (by decide) (by decide),
      pyReplace_pair_miss '=' '+' '+' '=' ['+'] a b (by decide) (by decide)
        hma hmb (by decide),
      pyReplace_pair_hit '+' '=' ['+'] a b (by decide) hma hmb,
      List.append_assoc, List.singleton_append,
      pyReplace_pair_single_miss '=' '=' '+' ['='] a b (by decide) (by decide) hma hmb,
      pyReplace_pair_single_miss '=' '-' '+' [] a b (by decide) (by decide) hma hmb,
      pyReplace_pair_single_miss '-' '=' '+' [] a b (by decide) (by decide) hma hmb,
      pyReplace_hyphen_free _ (hyphen_not_mem_single '+' a b (by decide) hma hmb)]
  · rw [format_compound,
      prep_middle a b '=' '=' ha hb hma hmb hla hlb (by decide) (by decide),
      pyReplace_pair_miss '=' '+' '=' '=' ['+'] a b (by decide) (by decide)
        hma hmb (by decide),
      pyReplace_pair_miss '+' '=' '=' '=' ['+'] a b (by decide) (by decide)
        hma hmb (by decide),
      pyReplace_pair_hit '=' '=' ['='] a b (by decide) hma hmb,
      List.append_assoc, List.singleton_append,
      pyReplace_pair_single_miss '=' '-' '=' [] a b (by decide) (by decide) hma hmb,
      pyReplace_pair_single_miss '-' '=' '=' [] a b (by decide) (by decide) hma hmb,
      pyReplace_hyphen_free _ (hyphen_not_mem_single '=' a b (by decide) hma hmb)]
  · rw [format_compound,
      prep_middle a b '=' '-' ha hb hma hmb hla hlb (by decide) (by decide),
      pyReplace_pair_miss '=' '+' '=' '-' ['+'] a b (by decide) (by decide)
        hma hmb (by decide),
      pyReplace_pair_miss '+' '=' '=' '-' ['+'] a b (by decide) (by decide)
        hma hmb (by decide),
      pyReplace_pair_miss '=' '=' '=' '-' ['='] a b (by decide) (by decide)
        hma hmb (by decide),
      pyReplace_pair_hit '=' '-' [] a b (by decide) hma hmb,
      List.append_nil,
      pyReplace_no_mem '-' ['='] [] (a ++ b) (hyphen_not_mem_append a b hma hmb),
      pyReplace_hyphen_free _ (hyphen_not_mem_append a b hma hmb)]
  · rw [format_compound,
      prep_middle a b '-' '=' ha hb hma hmb hla hlb (by decide) (by decide),
      pyReplace_pair_miss '=' '+' '-' '=' ['+'] a b (by decide) (by decide)
        hma hmb (by decide),
      pyReplace_pair_miss '+' '=' '-' '=' ['+'] a b (by decide) (by decide)
        hma hmb (by decide),
      pyReplace_pair_miss '=' '=' '-' '=' ['='] a b (by decide) (by decide)
        hma hmb (by decide),
      pyReplace_pair_miss '=' '-' '-' '=' [] a b (by decide) (by decide)
        hma hmb (by decide),
      pyReplace_pair_hit '-' '=' [] a b (by decide) hma hmb,
      List.append_nil,
      pyReplace_hyphen_free _ (hyphen_not_mem_append a b hma hmb)]

/-- C7 witness: the five collapse cases at the one-character stems t and o. -/
theorem C7_marker_collapse_amended_witness :
    format_compound ("t".toList ++ '=' :: '+' :: "o".toList) =
      "t".toList ++ '+' :: "o".toList ∧
    format_compound ("t".toList ++ '+' :: '=' :: "o".toList) =
      "t".toList ++ '+' :: "o".toList ∧
    format_compound ("t".toList ++ '=' :: '=' :: "o".toList) =
      "t".toList ++ '=' :: "o".toList ∧
    format_compound ("t".toList ++ '=' :: '-' :: "o".toList) =
      "t".toList ++ "o".toList ∧
    format_compound ("t".toList ++ '-' :: '=' :: "o".toList) =
      "t".toList ++ "o".toList :=
  C7_marker_collapse_amended ("t".toList) ("o".toList)
    (by decide) (by decide) (by decide) (by decide) (by decide) (by decide)

/-! ### Adjacent-marker analysis for format_compound idempotence -/

/-- The three boundary characters handled by the replacement passes of
`format_compound` (space is left untouched by it). -/
def isBMark (c : Char) : Bool :=
  c == '=' || c == '+' || c == '-'

/-- Does the string contain two adjacent boundary characters? -/
def hasAdjPair : List Char → Bool
  | c1 :: c2 :: rest => (isBMark c1 && isBMark c2) || hasAdjPair (c2 :: rest)
  | _ => false

theorem isBMark_iff_toNat (c : Char) :
    isBMark c = true ↔ c.toNat = 61 ∨ c.toNat = 43 ∨ c.toNat = 45 := by
  simp only [isBMark, Bool.or_eq_true, beq_iff_eq]
  constructor
  · rintro ((rfl | rfl) | rfl) <;> decide
  · rintro (h | h | h)
    · left; left; rw [char_eq_iff_toNat, h]; decide
    · left; right; rw [char_eq_iff_toNat, h]; decide
    · right; rw [char_eq_iff_toNat, h]; decide

theorem isBMark_imp_isMarker (c : Char) (h : isBMark c = true) :
    isMarker c = true := by
  rw [isBMark_iff_toNat] at h
  rw [isMarker_iff_toNat]
  omega

theorem isBMark_toLower (c : Char) : isBMark (Char.toLower c) = isBMark c := by
  by_cases h : isBMark c = true
  · rw [h]
    rw [isBMark_iff_toNat] at h ⊢
    rw [toLower_toNat, if_neg (by omega)]
    exact h
  · rw [Bool.not_eq_true] at h
    rw [h, Bool.eq_false_iff]
    intro h2
    rw [isBMark_iff_toNat, toLower_toNat] at h2
    rw [Bool.eq_false_iff, Ne, isBMark_iff_toNat] at h
    by_cases hu : 65 ≤ c.toNat ∧ c.toNat ≤ 90
    · rw [if_pos hu] at h2; omega
    · rw [if_neg hu] at h2; exact h h2

theorem hasAdjPair_cons_cons (c1 c2 : Char) (rest : List Char) :
    hasAdjPair (c1 :: c2 :: rest) =
      ((isBMark c1 && isBMark c2) || hasAdjPair (c2 :: rest)) := rfl

theorem hasAdjPair_iff (l : List Char) :
    hasAdjPair l = true ↔
      ∃ x y, isBMark x = true ∧ isBMark y = true ∧ [x, y] <:+: l := by
  constructor
  · intro h
    induction l with
    | nil => exact absurd h (by simp [hasAdjPair])
    | cons c1 rest ih =>
      match rest with
      | [] => exact absurd h (by simp [hasAdjPair])
      | c2 :: rest2 =>
        rw [hasAdjPair_cons_cons, Bool.or_eq_true, Bool.and_eq_true] at h
        rcases h with ⟨h1, h2⟩ | h3
        · exact ⟨c1, c2, h1, h2, ⟨[], rest2, rfl⟩⟩
        · obtain ⟨x, y, hx, hy, hinf⟩ := ih h3
          exact ⟨x, y, hx, hy, hinf.trans ⟨[c1], [], by simp⟩⟩
  · rintro ⟨x, y, hx, hy, u, v, huv⟩
    rw [← huv]
    clear huv
    induction u with
    | nil =>
      simp only [List.nil_append, List.cons_append]
      rw [hasAdjPair_cons_cons, hx, hy]
      rfl
    | cons c u ih =>
      rw [List.cons_append, List.cons_append]
      cases hu : u ++ [x, y] ++ v with
      | nil => exact absurd hu (by simp)
      | cons z zs =>
        rw [hasAdjPair_cons_cons]
        rw [hu] at ih
        rw [ih, Bool.or_true]

theorem hasAdjPair_false_iff (l : List Char) :
    hasAdjPair l = false ↔
      ∀ x y, isBMark x = true → isBMark y = true → ¬ ([x, y] <:+: l) := by
  rw [← Bool.not_eq_true, hasAdjPair_iff]
  constructor
  · intro h x y hx hy hinf
    exact h ⟨x, y, hx, hy, hinf⟩
  · rintro h ⟨x, y, hx, hy, hinf⟩
    exact h x y hx hy hinf

theorem hasAdjPair_mono (l2 l : List Char) (hinf : l2 <:+: l)
    (h : hasAdjPair l = false) : hasAdjPair l2 = false := by
  rw [hasAdjPair_false_iff] at h ⊢
  intro x y hx hy hxy
  exact h x y hx hy (hxy.trans hinf)

theorem hasAdjPair_tail (l : List Char) (h : hasAdjPair l = false) :
    hasAdjPair l.tail = false :=
  hasAdjPair_mono l.tail l (List.tail_suffix l).isInfix h

theorem hasAdjPair_dropLast (l : List Char) (h : hasAdjPair l = false) :
    hasAdjPair l.dropLast = false :=
  hasAdjPair_mono l.dropLast l (List.dropLast_prefix l).isInfix h

theorem hasAdjPair_map_toLower (l : List Char) (h : hasAdjPair l = false) :
    hasAdjPair (l.map Char.toLower) = false := by
  rw [hasAdjPair_false_iff] at h ⊢
  intro x y hx hy hinf
  rw [List.isInfix_map_iff] at hinf
  obtain ⟨l0, hl0, hmap⟩ := hinf
  match l0, hmap with
  | [x0, y0], hmap =>
    simp only [List.map_cons, List.map_nil, List.cons.injEq, and_true] at hmap
    have hx0 : isBMark x0 = true := by
      rw [← isBMark_toLower, ← hmap.1]
      exact hx
    have hy0 : isBMark y0 = true := by
      rw [← isBMark_toLower, ← hmap.2]
      exact hy
    exact h x0 y0 hx0 hy0 hl0

theorem hasAdjPair_reverse (l : List Char) :
    hasAdjPair l.reverse = hasAdjPair l := by
  cases hl : hasAdjPair l with
  | false =>
    rw [hasAdjPair_false_iff] at hl ⊢
    intro x y hx hy hinf
    apply hl y x hy hx
    apply List.reverse_infix.mp
    have hrev : ([y, x] : List Char).reverse = [x, y] := rfl
    rw [hrev]
    exact hinf
  | true =>
    rw [hasAdjPair_iff] at hl ⊢
    obtain ⟨x, y, hx, hy, hinf⟩ := hl
    refine ⟨y, x, hy, hx, ?_⟩
    have hyx : ([y, x] : List Char) = ([x, y] : List Char).reverse := rfl
    rw [hyx]
    exact List.reverse_infix.mpr hinf

/-- The final replacement pass of `format_compound`: remove every hyphen. -/
def cleanup (s : List Char) : List Char :=
  s.filter (fun c => !(c == '-'))

theorem pyReplace_pair_id (p1 p2 : Char) (repl s : List Char)
    (hp1 : isBMark p1 = true) (hp2 : isBMark p2 = true)
    (h : hasAdjPair s = false) :
    pyReplace [p1, p2] repl s = s := by
  show pyrGo p1 [p2] repl s 0 = s
  exact pyrGo_notOccur p1 [p2] repl s
    ((hasAdjPair_false_iff s).mp h p1 p2 hp1 hp2)

theorem hasAdjPair_cons_head_false (c : Char) (l : List Char)
    (hc : isBMark c = false) : hasAdjPair (c :: l) = hasAdjPair l := by
  cases l with
  | nil => rfl
  | cons z zs =>
    rw [hasAdjPair_cons_cons, hc]
    rw [Bool.false_and, Bool.false_or]

theorem noAdj_cleanup_aux : ∀ (n : Nat) (s : List Char), s.length ≤ n →
    hasAdjPair s = false → hasAdjPair (cleanup s) = false := by
  intro n
  induction n with
  | zero =>
    intro s hs _
    rw [List.length_eq_zero.mp (Nat.le_zero.mp hs)]
    rfl
  | succ n ih =>
    intro s hs h
    match s with
    | [] => rfl
    | [c] =>
      by_cases hc : c = '-'
      · have : cleanup [c] = [] := by
          rw [cleanup, List.filter_cons_of_neg (by simp [hc])]
          rfl
        rw [this]
        rfl
      · have : cleanup [c] = [c] := by
          rw [cleanup, List.filter_cons_of_pos (by simp [hc])]
          rfl
        rw [this]
        rfl
    | c1 :: c2 :: rest =>
      rw [hasAdjPair_cons_cons, Bool.or_eq_false_iff] at h
      obtain ⟨hp, ht⟩ := h
      simp only [List.length_cons] at hs
      by_cases h1 : c1 = '-'
      · have hcl : cleanup (c1 :: c2 :: rest) = cleanup (c2 :: rest) := by
          rw [cleanup, List.filter_cons_of_neg (by simp [h1])]
          rfl
        rw [hcl]
        exact ih (c2 :: rest) (by simp; omega) ht
      · have hcl : cleanup (c1 :: c2 :: rest) = c1 :: cleanup (c2 :: rest) := by
          rw [cleanup, List.filter_cons_of_pos (by simp [h1])]
          rfl
        rw [hcl]
        by_cases h2 : c2 = '-'
        · have hcl2 : cleanup (c2 :: rest) = cleanup rest := by
            rw [cleanup, List.filter_cons_of_neg (by simp [h2])]
            rfl
          have hc1B : isBMark c1 = false := by
            have : isBMark c2 = true := by
              rw [h2]
              rfl
            rw [this, Bool.and_true] at hp
            exact hp
          rw [hcl2, hasAdjPair_cons_head_false c1 _ hc1B]
          have hrest : hasAdjPair rest = false := by
            have := hasAdjPair_tail (c2 :: rest) ht
            simpa using this
          exact ih rest (by omega) hrest
        · have hcl2 : cleanup (c2 :: rest) = c2 :: cleanup rest := by
            rw [cleanup, List.filter_cons_of_pos (by simp [h2])]
            rfl
          rw [hcl2, hasAdjPair_cons_cons, hp, Bool.false_or, ← hcl2]
          exact ih (c2 :: rest) (by simp; omega) ht

theorem noAdj_cleanup (s : List Char) (h : hasAdjPair s = false) :
    hasAdjPair (cleanup s) = false :=
  noAdj_cleanup_aux s.length s (Nat.le_refl _) h

theorem cleanup_head (t : List Char) (c : Char) (h : hasAdjPair t = false)
    (hhd : (cleanup t).head? = some c) (hc : isBMark c = true) :
    t.head? = some c := by
  induction t with
  | nil => exact absurd hhd (by simp [cleanup])
  | cons x t ih =>
    by_cases hx : x = '-'
    · have hcl : cleanup (x :: t) = cleanup t := by
        rw [cleanup, List.filter_cons_of_neg (by simp [hx])]
        rfl
      rw [hcl] at hhd
      have hht := ih (by simpa using hasAdjPair_tail (x :: t) h) hhd
      obtain ⟨ys, rfl⟩ := List.head?_eq_some_iff.mp hht
      exfalso
      rw [hx, hasAdjPair_cons_cons] at h
      have hpair : (isBMark '-' && isBMark c) = true := by
        rw [hc, Bool.and_true]
        rfl
      rw [hpair, Bool.true_or] at h
      exact Bool.true_eq_false ▸ h
    · have hcl : cleanup (x :: t) = x :: cleanup t := by
        rw [cleanup, List.filter_cons_of_pos (by simp [hx])]
        rfl
      rw [hcl] at hhd
      simp only [List.head?_cons, Option.some.injEq] at hhd
      rw [List.head?_cons, hhd]

theorem cleanup_reverse (t : List Char) :
    (cleanup t).reverse = cleanup t.reverse := by
  rw [cleanup, cleanup, List.filter_reverse]

theorem cleanup_getLast (t : List Char) (c : Char) (h : hasAdjPair t = false)
    (hlast : (cleanup t).getLast? = some c) (hc : isBMark c = true) :
    t.getLast? = some c := by
  rw [List.getLast?_eq_head?_reverse] at hlast ⊢
  rw [cleanup_reverse] at hlast
  exact cleanup_head t.reverse c (by rw [hasAdjPair_reverse]; exact h) hlast hc

theorem prefix_head?_eq (l1 l2 : List Char) (c : Char) (h : l1 <+: l2)
    (hh : l1.head? = some c) : l2.head? = some c := by
  obtain ⟨t, rfl⟩ := h
  rw [List.head?_append, hh]
  rfl

theorem hasAdjPair_stripLead (s : List Char) (h : hasAdjPair s = false) :
    hasAdjPair (stripLead s) = false := by
  rw [stripLead]
  by_cases hc : (s.head? == some '=') = true
  · rw [if_pos hc]
    exact hasAdjPair_tail s h
  · rw [if_neg hc]
    exact h

theorem hasAdjPair_stripEdges (s : List Char) (h : hasAdjPair s = false) :
    hasAdjPair (stripEdges s) = false := by
  rw [stripEdges]
  by_cases hc : ((stripLead s).getLast? == some '=') = true
  · rw [if_pos hc]
    exact hasAdjPair_dropLast _ (hasAdjPair_stripLead s h)
  · rw [if_neg hc]
    exact hasAdjPair_stripLead s h

theorem stripLead_head_ne (s : List Char) (h : hasAdjPair s = false) :
    (stripLead s).head? ≠ some '=' := by
  match s with
  | [] => intro hcon; exact Option.noConfusion hcon
  | c :: rest =>
    rw [stripLead]
    by_cases hc : c = '='
    · rw [if_pos (by rw [hc]; rfl)]
      match rest with
      | [] => intro hcon; exact Option.noConfusion hcon
      | c2 :: r2 =>
        simp only [List.tail_cons, List.head?_cons]
        intro hc2
        injection hc2 with hc2
        rw [hc, hc2, hasAdjPair_cons_cons] at h
        have hpair : (isBMark '=' && isBMark '=') = true := rfl
        rw [hpair, Bool.true_or] at h
        exact Bool.true_eq_false ▸ h
    · rw [if_neg (by simp [hc])]
      simp only [List.head?_cons]
      intro hcon
      injection hcon with hcon
      exact hc hcon

theorem stripEdges_head_ne (s : List Char) (h : hasAdjPair s = false) :
    (stripEdges s).head? ≠ some '=' := by
  rw [stripEdges]
  by_cases hc : ((stripLead s).getLast? == some '=') = true
  · rw [if_pos hc]
    intro hcon
    exact stripLead_head_ne s h
      (prefix_head?_eq _ _ '=' (List.dropLast_prefix (stripLead s)) hcon)
  · rw [if_neg hc]
    exact stripLead_head_ne s h

theorem stripEdges_getLast_ne (s : List Char) (h : hasAdjPair s = false) :
    (stripEdges s).getLast? ≠ some '=' := by
  rw [stripEdges]
  by_cases hc : ((stripLead s).getLast? == some '=') = true
  · rw [if_pos hc]
    intro hcon
    have hsl : (stripLead s).getLast? = some '=' := by
      simpa using hc
    obtain ⟨ys, hys⟩ := List.getLast?_eq_some_iff.mp hsl
    rw [hys, List.dropLast_concat] at hcon
    obtain ⟨zs, hzs⟩ := List.getLast?_eq_some_iff.mp hcon
    have hinf : ['=', '='] <:+: stripLead s := by
      rw [hys, hzs]
      exact ⟨zs, [], by simp⟩
    have := (hasAdjPair_false_iff (stripLead s)).mp
      (hasAdjPair_stripLead s h) '=' '=' rfl rfl
    exact this hinf
  · rw [if_neg hc]
    intro hcon
    rw [hcon] at hc
    exact hc (by rfl)

theorem map_toLower_head_eq (t : List Char)
    (h : (t.map Char.toLower).head? = some '=') : t.head? = some '=' := by
  rw [List.head?_map] at h
  match ht : t.head? with
  | none => rw [ht] at h; exact Option.noConfusion h
  | some x =>
    rw [ht] at h
    simp only [Option.map_some'] at h
    have hx : Char.toLower x = '=' := by simpa using h
    exact congrArg some (toLower_eq_marker x '=' rfl hx)

theorem map_toLower_getLast_eq (t : List Char)
    (h : (t.map Char.toLower).getLast? = some '=') : t.getLast? = some '=' := by
  rw [List.getLast?_map] at h
  match ht : t.getLast? with
  | none => rw [ht] at h; exact Option.noConfusion h
  | some x =>
    rw [ht] at h
    simp only [Option.map_some'] at h
    have hx : Char.toLower x = '=' := by simpa using h
    exact congrArg some (toLower_eq_marker x '=' rfl hx)

theorem fc_noAdj_eq (s : List Char) (h : hasAdjPair s = false) :
    format_compound s = cleanup ((stripEdges s).map Char.toLower) := by
  have ht : hasAdjPair ((stripEdges s).map Char.toLower) = false :=
    hasAdjPair_map_toLower _ (hasAdjPair_stripEdges s h)
  rw [format_compound,
    pyReplace_pair_id '=' '+' ['+'] _ rfl rfl ht,
    pyReplace_pair_id '+' '=' ['+'] _ rfl rfl ht,
    pyReplace_pair_id '=' '=' ['='] _ rfl rfl ht,
    pyReplace_pair_id '=' '-' [] _ rfl rfl ht,
    pyReplace_pair_id '-' '=' [] _ rfl rfl ht,
    pyReplace_filter]
  rfl

theorem fc_fixed (r : List Char) (hadj : hasAdjPair r = false)
    (hhd : r.head? ≠ some '=') (hlast : r.getLast? ≠ some '=')
    (hhy : ('-' : Char) ∉ r) (hlow : ∀ c ∈ r, Char.toLower c = c) :
    format_compound r = r := by
  have hsl : stripLead r = r := by
    rw [stripLead, if_neg]
    intro hcon
    exact hhd (by simpa using hcon)
  have hse : stripEdges r = r := by
    rw [stripEdges, hsl, if_neg]
    intro hcon
    exact hlast (by simpa using hcon)
  rw [fc_noAdj_eq r hadj, hse, map_toLower_fix r hlow, cleanup,
    List.filter_eq_self.mpr]
  intro c hc
  simp only [Bool.not_eq_eq_eq_not, Bool.not_true, beq_eq_false_iff_ne, ne_eq]
  intro hce
  rw [hce] at hc
  exact hhy hc

/-- C8 counterexample: on a== the assembler is not idempotent: the first
pass strips only one trailing stem marker (yielding a=), and the second
pass strips the other (yielding a). -/
theorem C8_idempotent_counterexample :
    format_compound (format_compound ("a==".toList)) ≠
      format_compound ("a==".toList) := by decide

/-- C8 as amended: `format_compound` is idempotent on every input that
contains no two adjacent boundary characters (any of the characters `=`,
`+`, `-`); inputs with doubled or mixed adjacent markers (such as a== or
a==+b) can require a second pass, as the counterexample shows. -/
theorem C8_idempotent_amended (s : List Char) (h : hasAdjPair s = false) :
    format_compound (format_compound s) = format_compound s := by
  have hadjt : hasAdjPair ((stripEdges s).map Char.toLower) = false :=
    hasAdjPair_map_toLower _ (hasAdjPair_stripEdges s h)
  have hadjr : hasAdjPair (cleanup ((stripEdges s).map Char.toLower)) = false :=
    noAdj_cleanup _ hadjt
  have hhd : (cleanup ((stripEdges s).map Char.toLower)).head? ≠ some '=' := by
    intro hcon
    exact stripEdges_head_ne s h
      (map_toLower_head_eq _ (cleanup_head _ '=' hadjt hcon rfl))
  have hlast : (cleanup ((stripEdges s).map Char.toLower)).getLast? ≠
      some '=' := by
    intro hcon
    exact stripEdges_getLast_ne s h
      (map_toLower_getLast_eq _ (cleanup_getLast _ '=' hadjt hcon rfl))
  have hhy : ('-' : Char) ∉ cleanup ((stripEdges s).map Char.toLower) := by
    intro hmem
    have := (List.mem_filter.mp hmem).2
    simp at this
  have hlow : ∀ c ∈ cleanup ((stripEdges s).map Char.toLower),
      Char.toLower c = c := by
    intro c hc
    have hct := (List.mem_filter.mp hc).1
    obtain ⟨y, _, rfl⟩ := List.mem_map.mp hct
    exact toLower_toLower y
  rw [fc_noAdj_eq s h]
  exact fc_fixed _ hadjr hhd hlast hhy hlow

/-- C8 witness: idempotence at the well-formed segmentation
aakkos=hakemisto, which has no adjacent markers. -/
theorem C8_idempotent_amended_witness :
    hasAdjPair ("aakkos=hakemisto".toList) = false ∧
    format_compound (format_compound ("aakkos=hakemisto".toList)) =
      format_compound ("aakkos=hakemisto".toList) :=
  ⟨by decide, C8_idempotent_amended ("aakkos=hakemisto".toList) (by decide)⟩

end WCS
